import Mathlib

/-!
Verification development for the B-tree of `src/BTree.hpp` / `src/BTree.tpp`
(namespace `datas`, class `BTree<T>`), instantiated at `T = Int`.

Modelling conventions (shallow embedding):
* `std::vector` fields become `List`; the node type `BNode` keeps the three
  fields `is_leaf`, `keys`, `childrens` of the source struct.
* Functions that can throw (`splitSibling`, `insertVal`) or perform an
  out-of-bounds `std::vector` access (undefined behaviour in C++) return
  `Option`; `none` models "the operation does not complete normally".
  In particular `fixChild`'s `leftIdx = idx - 1` with `idx == 0` and no right
  sibling produces the C++ index `-1`, modelled as `none`.
* `int` indices, which are non-negative throughout, become `Nat`.
* The tree members `order`, `min_keys` are passed as explicit parameters to
  the member functions; the public wrappers supply them as the constructor
  computes them (`t = (order + 1) / 2`, `min_keys = t - 1`).
-/

namespace DatasBTree

/-- `struct BNode` of `BTree.hpp`: leaf flag, key vector, child vector. -/
inductive BNode : Type where
  | mk (is_leaf : Bool) (keys : List Int) (childrens : List BNode)

def BNode.is_leaf : BNode → Bool
  | .mk l _ _ => l

def BNode.keys : BNode → List Int
  | .mk _ ks _ => ks

def BNode.childrens : BNode → List BNode
  | .mk _ _ cs => cs

@[simp] theorem BNode.is_leaf_mk (l : Bool) (ks : List Int) (cs : List BNode) :
    (BNode.mk l ks cs).is_leaf = l := rfl

@[simp] theorem BNode.keys_mk (l : Bool) (ks : List Int) (cs : List BNode) :
    (BNode.mk l ks cs).keys = ks := rfl

@[simp] theorem BNode.childrens_mk (l : Bool) (ks : List Int) (cs : List BNode) :
    (BNode.mk l ks cs).childrens = cs := rfl

@[simp] theorem if_true_cond {α : Type} (a b : α) : (if true = true then a else b) = a := rfl

@[simp] theorem if_false_cond {α : Type} (a b : α) : (if false = true then a else b) = b := rfl

mutual

/-- Height of a node: 1 plus the maximal child height.  Used as the
termination measure of the recursive member functions. -/
def height : BNode → Nat
  | .mk _ _ cs => 1 + heightList cs

def heightList : List BNode → Nat
  | [] => 0
  | c :: cs => max (height c) (heightList cs)

end

mutual

/-- Every key stored in the subtree of a node, as a list: the node's own keys
followed by the keys of all descendants. -/
def keysList : BNode → List Int
  | .mk _ ks cs => ks ++ keysListAll cs

def keysListAll : List BNode → List Int
  | [] => []
  | c :: cs => keysList c ++ keysListAll cs

end

/-- `BTree<T>::keyIndex`: the linear scan
`while (idx < node->keys.size() && node->keys[idx] < val) idx++;`,
returning the first index whose key is not `< val`. -/
def keyIndex : List Int → Int → Nat
  | [], _ => 0
  | k :: ks, val => if k < val then keyIndex ks val + 1 else 0

theorem height_le_of_mem {c : BNode} {cs : List BNode} (h : c ∈ cs) :
    height c ≤ heightList cs := by
  induction cs with
  | nil => cases h
  | cons d ds ih =>
    rw [heightList]
    rcases List.mem_cons.mp h with h1 | h2
    · exact h1 ▸ Nat.le_max_left _ _
    · exact le_trans (ih h2) (Nat.le_max_right _ _)

theorem height_lt_of_mem {c : BNode} {lf : Bool} {ks : List Int} {cs : List BNode}
    (h : c ∈ cs) : height c < height (.mk lf ks cs) := by
  rw [height]
  have := height_le_of_mem h
  omega

theorem height_eq (n : BNode) : height n = 1 + heightList n.childrens := by
  cases n
  rfl

theorem heightList_append (a b : List BNode) :
    heightList (a ++ b) = max (heightList a) (heightList b) := by
  induction a with
  | nil => simp [heightList]
  | cons c cs ih =>
    rw [List.cons_append, heightList, heightList, ih]
    exact (Nat.max_assoc _ _ _).symm

theorem mem_insertIdx_cases {α : Type} {a b : α} {n : Nat} {l : List α}
    (h : a ∈ List.insertIdx n b l) : a = b ∨ a ∈ l := by
  induction l generalizing n with
  | nil =>
    cases n with
    | zero => simpa [List.insertIdx] using h
    | succ m => simp [List.insertIdx] at h
  | cons x xs ih =>
    cases n with
    | zero =>
      have h0 : a = b ∨ a = x ∨ a ∈ xs := by simpa [List.insertIdx] using h
      rcases h0 with h1 | h2 | h3
      · exact Or.inl h1
      · exact Or.inr (h2 ▸ List.mem_cons_self _ _)
      · exact Or.inr (List.mem_cons_of_mem _ h3)
    | succ m =>
      have h0 : a = x ∨ a ∈ List.insertIdx m b xs := by simpa [List.insertIdx] using h
      rcases h0 with h1 | h2
      · exact Or.inr (h1 ▸ List.mem_cons_self _ _)
      · rcases ih h2 with h3 | h4
        · exact Or.inl h3
        · exact Or.inr (List.mem_cons_of_mem _ h4)

theorem length_insertIdx_le {α : Type} (n : Nat) (b : α) (l : List α) :
    (List.insertIdx n b l).length ≤ l.length + 1 := by
  induction l generalizing n with
  | nil =>
    cases n with
    | zero => simp [List.insertIdx]
    | succ m => simp [List.insertIdx]
  | cons x xs ih =>
    cases n with
    | zero => simp [List.insertIdx]
    | succ m =>
      rw [List.insertIdx]
      simpa using Nat.add_le_add_right (ih m) 1

theorem heightList_take_le (n : Nat) (cs : List BNode) :
    heightList (cs.take n) ≤ heightList cs := by
  induction cs generalizing n with
  | nil => simp [List.take]
  | cons c cs ih =>
    cases n with
    | zero => simp [List.take, heightList]
    | succ m =>
      rw [List.take, heightList, heightList]
      exact max_le_max (le_refl _) (ih m)

theorem heightList_drop_le (n : Nat) (cs : List BNode) :
    heightList (cs.drop n) ≤ heightList cs := by
  induction cs generalizing n with
  | nil => simp [List.drop]
  | cons c cs ih =>
    cases n with
    | zero => exact le_refl _
    | succ m =>
      rw [List.drop, heightList]
      exact le_trans (ih m) (Nat.le_max_right _ _)

/-- `BTree<T>::findVal`: lookup starting at `node`.
An out-of-bounds child access (impossible on well-formed trees) yields `false`. -/
def findVal : BNode → Int → Bool
  | .mk lf ks cs, val =>
    let idx := keyIndex ks val
    if ks[idx]? = some val then true
    else if lf then false
    else
      match h : cs[idx]? with
      | none => false
      | some c => findVal c val
termination_by n _ => height n
decreasing_by
  exact height_lt_of_mem (List.getElem?_mem h)

/-- `BTree<T>::splitSibling`: requires the node to hold exactly `order - 1`
keys (otherwise `throw`, modelled `none`).  Returns the shrunk node, the
median key and the new right sibling. -/
def splitSibling (order : Nat) : BNode → Option (BNode × Int × BNode)
  | .mk lf ks cs =>
    if ks.length ≠ order - 1 then none
    else
      match ks[(order - 1) / 2]? with
      | none => none
      | some midVal =>
        some (.mk lf (ks.take ((order - 1) / 2)) (if lf then cs else cs.take ((order - 1) / 2 + 1)),
          midVal,
          .mk lf (ks.drop ((order - 1) / 2 + 1)) (if lf then [] else cs.drop ((order - 1) / 2 + 1)))

theorem splitSibling_height {order : Nat} {c : BNode} {r : BNode × Int × BNode}
    (h : splitSibling order c = some r) :
    height r.1 ≤ height c ∧ height r.2.2 ≤ height c := by
  obtain ⟨lf, ks, cs⟩ := c
  rw [splitSibling] at h
  split at h
  · cases h
  · cases hm : ks[(order - 1) / 2]? with
    | none => rw [hm] at h; cases h
    | some midVal =>
      rw [hm] at h
      cases h
      constructor
      · rw [height, height]
        split
        · exact le_refl _
        · exact Nat.add_le_add_left (heightList_take_le _ _) 1
      · rw [height, height]
        split
        · have hz : heightList ([] : List BNode) = 0 := rfl
          omega
        · exact Nat.add_le_add_left (heightList_drop_le _ _) 1

/-- `BTree<T>::splitChild`: split child `index` and graft median and sibling
into the current node. -/
def splitChild (order : Nat) (node : BNode) (index : Nat) : Option BNode :=
  match node with
  | .mk lf ks cs =>
    match cs[index]? with
    | none => none
    | some c =>
      (splitSibling order c).map fun r =>
        .mk lf (ks.insertIdx index r.2.1) ((cs.set index r.1).insertIdx (index + 1) r.2.2)

/-- `BTree<T>::insertVal`: recursive descent insert; splits a full child
before descending and recomputes the index afterwards.  `none` models the
`"inserting to full leaf"` exception and out-of-bounds accesses. -/
def insertVal (order : Nat) : BNode → Int → Option BNode
  | .mk lf ks cs, val =>
    let idx := keyIndex ks val
    if lf then
      if order - 1 ≤ ks.length then none
      else some (.mk lf (ks.insertIdx idx val) cs)
    else
      match hc : cs[idx]? with
      | none => none
      | some c =>
        if c.keys.length = order - 1 then
          match hs : splitSibling order c with
          | none => none
          | some r =>
            let ks1 := ks.insertIdx idx r.2.1
            let cs1 := (cs.set idx r.1).insertIdx (idx + 1) r.2.2
            let idx2 := keyIndex ks1 val
            match hc2 : cs1[idx2]? with
            | none => none
            | some c2 =>
              (insertVal order c2 val).map fun u => .mk lf ks1 (cs1.set idx2 u)
        else
          (insertVal order c val).map fun u => .mk lf ks (cs.set idx u)
termination_by n _ => height n
decreasing_by
· have hsp := splitSibling_height hs
  have hcmem : height c < height (BNode.mk lf ks cs) :=
    height_lt_of_mem (List.getElem?_mem hc)
  rcases mem_insertIdx_cases (List.getElem?_mem hc2) with h1 | h2
  · exact lt_of_le_of_lt (h1 ▸ hsp.2) hcmem
  · rcases List.mem_or_eq_of_mem_set h2 with h3 | h4
    · exact height_lt_of_mem h3
    · exact lt_of_le_of_lt (h4 ▸ hsp.1) hcmem
· exact height_lt_of_mem (List.getElem?_mem hc)

/-- `BTree<T>::mergeSiblings`: absorb the separator key `keys[idx]` and the
right sibling `childrens[idx+1]` into `childrens[idx]`. -/
def mergeSiblings (node : BNode) (idx : Nat) : Option BNode :=
  match node with
  | .mk lf ks cs =>
    match ks[idx]?, cs[idx]?, cs[idx + 1]? with
    | some key, some l, some r =>
      let merged : BNode :=
        .mk l.is_leaf (l.keys ++ key :: r.keys)
          (if l.is_leaf then l.childrens else l.childrens ++ r.childrens)
      some (.mk lf (ks.eraseIdx idx) ((cs.set idx merged).eraseIdx (idx + 1)))
    | _, _, _ => none

/-- `BTree<T>::borrowFromRight`: rotate the separator down into `childrens[idx]`
and the right sibling's first key up into the parent. -/
def borrowFromRight (node : BNode) (idx : Nat) : Option BNode :=
  match node with
  | .mk lf ks cs =>
    match ks[idx]?, cs[idx]?, cs[idx + 1]? with
    | some key, some l, some r =>
      match r.keys with
      | [] => none
      | r0 :: rrest =>
        if l.is_leaf then
          some (.mk lf (ks.set idx r0)
            ((cs.set idx (.mk l.is_leaf (l.keys ++ [key]) l.childrens)).set (idx + 1)
              (.mk r.is_leaf rrest r.childrens)))
        else
          match r.childrens with
          | [] => none
          | rc0 :: rcrest =>
            some (.mk lf (ks.set idx r0)
              ((cs.set idx (.mk l.is_leaf (l.keys ++ [key]) (l.childrens ++ [rc0]))).set (idx + 1)
                (.mk r.is_leaf rrest rcrest)))
    | _, _, _ => none

/-- `BTree<T>::borrowFromLeft`: mirror image of `borrowFromRight`, using the
left sibling `childrens[idx-1]`.  `idx = 0` would access index `-1` in C++. -/
def borrowFromLeft (node : BNode) (idx : Nat) : Option BNode :=
  match node with
  | .mk lf ks cs =>
    if idx = 0 then none
    else
      match ks[idx - 1]?, cs[idx - 1]?, cs[idx]? with
      | some key, some l, some r =>
        match l.keys.getLast? with
        | none => none
        | some lLast =>
          if r.is_leaf then
            some (.mk lf (ks.set (idx - 1) lLast)
              ((cs.set (idx - 1) (.mk l.is_leaf (l.keys.dropLast) l.childrens)).set idx
                (.mk r.is_leaf (key :: r.keys) r.childrens)))
          else
            match l.childrens.getLast? with
            | none => none
            | some lcLast =>
              some (.mk lf (ks.set (idx - 1) lLast)
                ((cs.set (idx - 1) (.mk l.is_leaf (l.keys.dropLast) (l.childrens.dropLast))).set idx
                  (.mk r.is_leaf (key :: r.keys) (lcLast :: r.childrens))))
      | _, _, _ => none

/-- `BTree<T>::fixChild`: repair an under-full `childrens[idx]` after a
recursive removal, preferring borrow-from-left, then borrow-from-right, then a
merge (with the right sibling if it exists, else the left).  When `idx = 0`
and there is no right sibling, C++ computes `leftIdx = -1` (undefined
behaviour), modelled as `none`. -/
def fixChild (min_keys : Nat) (node : BNode) (idx : Nat) : Option BNode :=
  match hc : node.childrens[idx]? with
  | none => none
  | some c =>
    if min_keys ≤ c.keys.length then some node
    else if 0 < idx ∧ min_keys < ((node.childrens[idx - 1]?).map (·.keys.length)).getD 0 then
      borrowFromLeft node idx
    else if idx < node.childrens.length - 1 ∧
        min_keys < ((node.childrens[idx + 1]?).map (·.keys.length)).getD 0 then
      borrowFromRight node idx
    else if idx < node.childrens.length - 1 then
      mergeSiblings node idx
    else if 0 < idx then
      mergeSiblings node (idx - 1)
    else none

/-- `BTree<T>::findSuc`: walk the leftmost chain down to a leaf and return its
first key.  An empty key vector at the leaf means the C++ reads `keys[0]` out
of bounds. -/
def findSuc : BNode → Option Int
  | .mk lf ks cs =>
    if lf then ks[0]?
    else
      match h : cs[0]? with
      | none => none
      | some c => findSuc c
termination_by n => height n
decreasing_by
  exact height_lt_of_mem (List.getElem?_mem h)

/-- `BTree<T>::findPred`: walk down `childrens[keys.size()]` to a leaf and
return its last key (`keys[keys.size() - 1]`, out of bounds when empty). -/
def findPred : BNode → Option Int
  | .mk lf ks cs =>
    if lf then ks.getLast?
    else
      match h : cs[ks.length]? with
      | none => none
      | some c => findPred c
termination_by n => height n
decreasing_by
  exact height_lt_of_mem (List.getElem?_mem h)

/-- `BTree<T>::removeVal`: recursive removal with predecessor/successor
substitution, pre-emptive merge, and post-recursion `fixChild`. -/
def removeVal (min_keys : Nat) : BNode → Int → Option BNode
  | .mk lf ks cs, val =>
    let idx := keyIndex ks val
    if lf then
      if ks[idx]? = some val then some (.mk lf (ks.eraseIdx idx) cs)
      else some (.mk lf ks cs)
    else
      if ks[idx]? = some val then
        match hc : cs[idx]? with
        | none => none
        | some cl =>
          if min_keys < cl.keys.length then
            match findPred cl with
            | none => none
            | some p =>
              match hrec : removeVal min_keys cl p with
              | none => none
              | some cl2 => fixChild min_keys (.mk lf (ks.set idx p) (cs.set idx cl2)) idx
          else
            match hcr : cs[idx + 1]? with
            | none => none
            | some cr =>
              if min_keys < cr.keys.length then
                match findSuc cr with
                | none => none
                | some s =>
                  match hrec : removeVal min_keys cr s with
                  | none => none
                  | some cr2 =>
                    fixChild min_keys (.mk lf (ks.set idx s) (cs.set (idx + 1) cr2)) (idx + 1)
              else
                let merged : BNode :=
                  .mk cl.is_leaf (cl.keys ++ val :: cr.keys)
                    (if cl.is_leaf then cl.childrens else cl.childrens ++ cr.childrens)
                match hrec : removeVal min_keys merged val with
                | none => none
                | some m2 =>
                  fixChild min_keys
                    (.mk lf (ks.eraseIdx idx) (((cs.set idx merged).eraseIdx (idx + 1)).set idx m2))
                    idx
      else
        match hc : cs[idx]? with
        | none => none
        | some c =>
          match hrec : removeVal min_keys c val with
          | none => none
          | some c2 => fixChild min_keys (.mk lf ks (cs.set idx c2)) idx
termination_by n _ => height n
decreasing_by
· exact height_lt_of_mem (List.getElem?_mem hc)
· exact height_lt_of_mem (List.getElem?_mem hcr)
· have hl : height cl ≤ heightList cs := height_le_of_mem (List.getElem?_mem hc)
  have hr : height cr ≤ heightList cs := height_le_of_mem (List.getElem?_mem hcr)
  have hl2 := height_eq cl
  have hr2 := height_eq cr
  rw [height, height]
  split
  · omega
  · rw [heightList_append]
    have h5 : max (heightList cl.childrens) (heightList cr.childrens) < heightList cs :=
      Nat.max_lt.mpr ⟨by omega, by omega⟩
    omega
· exact height_lt_of_mem (List.getElem?_mem hc)

/-- The tree aggregate: `order` and the owned root.  `min_keys` is derived
exactly as the constructor computes it. -/
structure BTree where
  order : Nat
  root : BNode

def BTree.min_keys (t : BTree) : Nat := (t.order + 1) / 2 - 1

/-- `BTree<T>::BTree(int order_)`: rejects `order < 3`, otherwise starts with
a single empty leaf root. -/
def BTree.make (order : Nat) : Option BTree :=
  if order < 3 then none else some ⟨order, .mk true [] []⟩

/-- `BTree<T>::insert`: pre-split a full root, then `insertVal`. -/
def BTree.insert (t : BTree) (val : Int) : Option BTree :=
  if t.root.keys.length = t.order - 1 then
    match splitSibling t.order t.root with
    | none => none
    | some r =>
      (insertVal t.order (.mk false [r.2.1] [r.1, r.2.2]) val).map fun n => ⟨t.order, n⟩
  else
    (insertVal t.order t.root val).map fun n => ⟨t.order, n⟩

/-- `BTree<T>::find`. -/
def BTree.find (t : BTree) (val : Int) : Bool := findVal t.root val

/-- `BTree<T>::remove`: no-op when `findVal` fails, otherwise `removeVal`
followed by the root-collapse check. -/
def BTree.remove (t : BTree) (val : Int) : Option BTree :=
  if findVal t.root val then
    match removeVal t.min_keys t.root val with
    | none => none
    | some r =>
      if r.is_leaf = false ∧ r.keys = [] then
        match r.childrens[0]? with
        | none => none
        | some c => some ⟨t.order, c⟩
      else some ⟨t.order, r⟩
  else some t

/-! ## Structural predicates

Executable predicates expressing the spec's data-model invariants (§3 of the
spec): equal leaf depths, per-node key-count bounds, the child-count law, and
the search-order property.  They are stated over the embedded `BNode` type and
evaluated by the kernel on concrete trees. -/

/-- Keys are in non-decreasing order (duplicates permitted). -/
def sortedB : List Int → Bool
  | [] => true
  | [_] => true
  | a :: b :: rest => decide (a ≤ b) && sortedB (b :: rest)

mutual

/-- Spec invariant 4: an internal node with `k` keys has exactly `k+1`
children, recursively at every node (no constraint at leaves). -/
def childLink : BNode → Bool
  | .mk lf ks cs => (if lf then true else decide (cs.length = ks.length + 1)) && childLinkAll cs

def childLinkAll : List BNode → Bool
  | [] => true
  | c :: cs => childLink c && childLinkAll cs

end

mutual

/-- Every node of the subtree holds between `mn` and `mx` keys. -/
def nodeKeysBounded (mn mx : Nat) : BNode → Bool
  | .mk _ ks cs => decide (mn ≤ ks.length) && decide (ks.length ≤ mx) && nodesKeysBounded mn mx cs

def nodesKeysBounded (mn mx : Nat) : List BNode → Bool
  | [] => true
  | c :: cs => nodeKeysBounded mn mx c && nodesKeysBounded mn mx cs

end

mutual

/-- The depth (from this node) of every leaf of the subtree. -/
def leafDepths : BNode → List Nat
  | .mk true _ _ => [0]
  | .mk false _ cs => (leafDepthsAll cs).map (· + 1)

def leafDepthsAll : List BNode → List Nat
  | [] => []
  | c :: cs => leafDepths c ++ leafDepthsAll cs

end

/-- Spec invariant 1: all leaves are at the same depth. -/
def depthsEqual (n : BNode) : Bool :=
  match leafDepths n with
  | [] => true
  | d :: ds => ds.all (· == d)

/-- The invariants of claim C1 for a whole tree: equal leaf depths, child
count = key count + 1 at internal nodes, root key count at most `order - 1`,
and every non-root node holding between `min_keys` and `order - 1` keys. -/
def btreeInvariant (t : BTree) : Bool :=
  depthsEqual t.root && childLink t.root &&
  decide (t.root.keys.length ≤ t.order - 1) &&
  nodesKeysBounded t.min_keys (t.order - 1) t.root.childrens

/-- All children of the list have equal height. -/
def heightsEqual (cs : List BNode) : Bool := cs.all (fun c => height c == heightList cs)

mutual

/-- Structural well-formedness: leaves own no children, internal nodes have
`keys + 1` children, and siblings have equal heights (equal leaf depth). -/
def shapeOk : BNode → Bool
  | .mk lf ks cs =>
    (if lf then cs.isEmpty else decide (cs.length = ks.length + 1) && heightsEqual cs) &&
      shapeAll cs

def shapeAll : List BNode → Bool
  | [] => true
  | c :: cs => shapeOk c && shapeAll cs

end

mutual

/-- Every leaf of the subtree holds at most `mx` keys. -/
def leavesAtMost (mx : Nat) : BNode → Bool
  | .mk lf ks cs => (if lf then decide (ks.length ≤ mx) else true) && leavesAtMostAll mx cs

def leavesAtMostAll (mx : Nat) : List BNode → Bool
  | [] => true
  | c :: cs => leavesAtMost mx c && leavesAtMostAll mx cs

end

/-- `lo` is a lower bound for `k` (`none` = unbounded). -/
def lbOk : Option Int → Int → Bool
  | none, _ => true
  | some a, k => decide (a ≤ k)

mutual

/-- Spec invariant 5 (search-order property): keys sorted within each node,
and for an internal node every key of `children[i]` lies between the adjacent
separator keys (at most `keys[i]`, at least `keys[i-1]`). -/
def orderedNode : BNode → Bool
  | .mk lf ks cs => sortedB ks && (if lf then true else kidsOrdered none ks cs)

def kidsOrdered : Option Int → List Int → List BNode → Bool
  | lo, [], cs =>
    match cs with
    | [c] => orderedNode c && (keysList c).all (fun x => lbOk lo x)
    | _ => false
  | lo, k :: ks, cs =>
    match cs with
    | c :: cs2 =>
      orderedNode c && (keysList c).all (fun x => lbOk lo x && decide (x ≤ k)) &&
        kidsOrdered (some k) ks cs2
    | [] => false

end

/-- Well-formed tree state: the invariants of spec §3 (order at least 3,
shape, search order, root key bound, non-degenerate internal root, and the
occupancy bounds for non-root nodes). -/
def wfTree (t : BTree) : Bool :=
  decide (3 ≤ t.order) && shapeOk t.root && orderedNode t.root &&
  decide (t.root.keys.length ≤ t.order - 1) &&
  (if t.root.is_leaf then true else decide (1 ≤ t.root.keys.length)) &&
  nodesKeysBounded t.min_keys (t.order - 1) t.root.childrens

/-- `InTree n r`: the node `n` occurs in the subtree rooted at `r` (it is `r`
itself or sits below one of its children). -/
inductive InTree : BNode → BNode → Prop where
  | refl (n : BNode) : InTree n n
  | child {n c r : BNode} (hc : c ∈ r.childrens) (h : InTree n c) : InTree n r

theorem getElem?_decomp {α : Type} {l : List α} {i : Nat} {a : α} (h : l[i]? = some a) :
    ∃ t d, l = t ++ a :: d ∧ t.length = i := by
  induction l generalizing i with
  | nil => simp at h
  | cons x xs ih =>
    cases i with
    | zero =>
      have hx : x = a := by simpa using h
      exact ⟨[], xs, by rw [hx]; rfl, rfl⟩
    | succ j =>
      obtain ⟨t, d, h1, h2⟩ := ih (by simpa using h)
      exact ⟨x :: t, d, by rw [List.cons_append, h1], by simp [h2]⟩

theorem getElem?_decomp2 {α : Type} {l : List α} {i : Nat} {a b : α}
    (h1 : l[i]? = some a) (h2 : l[i + 1]? = some b) :
    ∃ t d, l = t ++ a :: b :: d ∧ t.length = i := by
  obtain ⟨t, d0, hd, hl⟩ := getElem?_decomp h1
  subst hd
  rw [List.getElem?_append_right (by omega)] at h2
  have hd0 : (a :: d0)[1]? = some b := by
    have : i + 1 - t.length = 1 := by omega
    rw [this] at h2
    exact h2
  cases d0 with
  | nil => simp at hd0
  | cons y ys =>
    have hy : y = b := by simpa using hd0
    exact ⟨t, ys, by rw [hy], hl⟩

theorem set_at_append {α : Type} (t : List α) (a : α) (d : List α) (x : α) :
    (t ++ a :: d).set t.length x = t ++ x :: d := by
  induction t with
  | nil => rfl
  | cons y ys ih => simpa [List.set] using ih

theorem eraseIdx_at_append {α : Type} (t : List α) (a : α) (d : List α) :
    (t ++ a :: d).eraseIdx t.length = t ++ d := by
  induction t with
  | nil => rfl
  | cons y ys ih => simpa [List.eraseIdx] using ih

theorem insertIdx_at_append {α : Type} (t : List α) (d : List α) (x : α) :
    (t ++ d).insertIdx t.length x = t ++ x :: d := by
  induction t with
  | nil => rfl
  | cons y ys ih => simpa [List.insertIdx] using ih

theorem getElem?_at_append {α : Type} (t : List α) (a : α) (d : List α) :
    (t ++ a :: d)[t.length]? = some a := by
  rw [List.getElem?_append_right (le_refl _)]
  simp

theorem take_at_append {α : Type} (t : List α) (a : α) (d : List α) :
    (t ++ a :: d).take t.length = t := by
  induction t with
  | nil => rfl
  | cons y ys ih => simpa [List.take] using ih

theorem drop_succ_at_append {α : Type} (t : List α) (a : α) (d : List α) :
    (t ++ a :: d).drop (t.length + 1) = d := by
  induction t with
  | nil => rfl
  | cons y ys ih => simpa [List.drop] using ih

theorem take_succ_at_append {α : Type} (t : List α) (a : α) (d : List α) :
    (t ++ a :: d).take (t.length + 1) = t ++ [a] := by
  induction t with
  | nil => rfl
  | cons y ys ih => simpa [List.take] using ih

theorem keysListAll_append (a b : List BNode) :
    keysListAll (a ++ b) = keysListAll a ++ keysListAll b := by
  induction a with
  | nil => rfl
  | cons c cs ih => rw [List.cons_append, keysListAll, keysListAll, ih, List.append_assoc]

theorem keysList_def (lf : Bool) (ks : List Int) (cs : List BNode) :
    keysList (.mk lf ks cs) = ks ++ keysListAll cs := by
  rw [keysList]

theorem keysList_proj (n : BNode) : keysList n = n.keys ++ keysListAll n.childrens := by
  cases n
  rw [keysList]
  rfl

theorem mem_keysListAll_of_mem {c : BNode} {cs : List BNode} {x : Int}
    (hc : c ∈ cs) (hx : x ∈ keysList c) : x ∈ keysListAll cs := by
  induction cs with
  | nil => cases hc
  | cons d ds ih =>
    rw [keysListAll, List.mem_append]
    rcases List.mem_cons.mp hc with h1 | h2
    · exact Or.inl (h1 ▸ hx)
    · exact Or.inr (ih h2)

theorem findVal_mem : ∀ n (v : Int), findVal n v = true → v ∈ keysList n := by
  have H : ∀ h n (v : Int), height n ≤ h → findVal n v = true → v ∈ keysList n := by
    intro h
    induction h with
    | zero =>
      intro n v hh
      obtain ⟨lf, ks, cs⟩ := n
      rw [height] at hh
      omega
    | succ m ih =>
      intro n v hh hf
      obtain ⟨lf, ks, cs⟩ := n
      rw [findVal] at hf
      rw [keysList_def, List.mem_append]
      by_cases h1 : ks[keyIndex ks v]? = some v
      · exact Or.inl (List.getElem?_mem h1)
      · rw [if_neg h1] at hf
        cases hlf : lf
        · rw [hlf] at hf
          simp only [Bool.false_eq_true, if_false] at hf
          cases hc : cs[keyIndex ks v]? with
          | none => rw [hc] at hf; cases hf
          | some c =>
            rw [hc] at hf
            have hcm : c ∈ cs := List.getElem?_mem hc
            have hlt : height c < height (BNode.mk lf ks cs) := height_lt_of_mem hcm
            rw [height] at hh hlt
            exact Or.inr (mem_keysListAll_of_mem hcm (ih c v (by omega) hf))
        · rw [hlf] at hf
          simp at hf
  exact fun n v => H (height n) n v (le_refl _)

/-- C5: removing an absent value is a no-op returning the tree unchanged
(the `remove` wrapper checks `findVal` first and returns immediately). -/
theorem c5_remove_absent_noop (t : BTree) (v : Int) (h : v ∉ keysList t.root) :
    t.remove v = some t := by
  have hf : findVal t.root v = false := by
    cases hx : findVal t.root v
    · rfl
    · exact absurd (findVal_mem _ _ hx) h
  rw [BTree.remove, if_neg (by rw [hf]; exact Bool.false_ne_true)]

/-- Witness for C5: removing the absent value 5 from the order-4 tree holding
only 1 returns the very same tree. -/
theorem c5_witness :
    (5 : Int) ∉ keysList (BNode.mk true [1] []) ∧
    BTree.remove ⟨4, .mk true [1] []⟩ 5 = some ⟨4, .mk true [1] []⟩ :=
  ⟨by decide, c5_remove_absent_noop ⟨4, .mk true [1] []⟩ 5 (by decide)⟩

/-- C6: `splitSibling` errors exactly on nodes that are not full, and on a
full node (`order - 1` keys, order at least 3) it promotes the key at index
`mid = (order-1)/2`, keeps keys `[0,mid)` (and children `[0,mid]` when
internal) in the node, and moves keys `[mid+1, order-2]` (and children
`[mid+1, order-1]` when internal) to the new sibling. -/
theorem c6_splitSibling_contract (order : Nat) (lf : Bool) (ks : List Int) (cs : List BNode) :
    (ks.length ≠ order - 1 → splitSibling order (.mk lf ks cs) = none) ∧
    (ks.length = order - 1 → 3 ≤ order →
      ∃ n1 mv sib, splitSibling order (.mk lf ks cs) = some (n1, mv, sib) ∧
        ks[(order - 1) / 2]? = some mv ∧
        n1.is_leaf = lf ∧ n1.keys = ks.take ((order - 1) / 2) ∧
        (lf = true → n1.childrens = cs) ∧
        (lf = false → n1.childrens = cs.take ((order - 1) / 2 + 1)) ∧
        sib.is_leaf = lf ∧ sib.keys = ks.drop ((order - 1) / 2 + 1) ∧
        (lf = true → sib.childrens = []) ∧
        (lf = false → sib.childrens = cs.drop ((order - 1) / 2 + 1))) := by
  constructor
  · intro h
    rw [splitSibling, if_pos h]
  · intro hlen hord
    have hmid : (order - 1) / 2 < ks.length := by omega
    have hmv : ks[(order - 1) / 2]? = some ks[(order - 1) / 2] :=
      List.getElem?_eq_getElem hmid
    refine ⟨.mk lf (ks.take ((order - 1) / 2)) (if lf then cs else cs.take ((order - 1) / 2 + 1)),
      ks[(order - 1) / 2],
      .mk lf (ks.drop ((order - 1) / 2 + 1)) (if lf then [] else cs.drop ((order - 1) / 2 + 1)),
      ?_, hmv, rfl, rfl, ?_, ?_, rfl, rfl, ?_, ?_⟩
    · rw [splitSibling, if_neg (by omega)]
      rw [hmv]
    · intro hlf; rw [hlf]; simp
    · intro hlf; rw [hlf]; simp
    · intro hlf; rw [hlf]; simp
    · intro hlf; rw [hlf]; simp

/-- Witness for C6: at order 4 a two-key node is rejected, and the full
three-key leaf `[1,2,3]` splits into `[1]`, median `2`, and sibling `[3]`. -/
theorem c6_witness :
    splitSibling 4 (BNode.mk true [1, 2] []) = none ∧
    (∃ n1 mv sib, splitSibling 4 (BNode.mk true [1, 2, 3] []) = some (n1, mv, sib) ∧
      ([1, 2, 3] : List Int)[(4 - 1) / 2]? = some mv ∧
      n1.is_leaf = true ∧ n1.keys = ([1, 2, 3] : List Int).take ((4 - 1) / 2) ∧
      (true = true → n1.childrens = []) ∧
      (true = false → n1.childrens = List.take ((4 - 1) / 2 + 1) []) ∧
      sib.is_leaf = true ∧ sib.keys = ([1, 2, 3] : List Int).drop ((4 - 1) / 2 + 1) ∧
      (true = true → sib.childrens = []) ∧
      (true = false → sib.childrens = List.drop ((4 - 1) / 2 + 1) [])) :=
  ⟨(c6_splitSibling_contract 4 true [1, 2] []).1 (by decide),
    (c6_splitSibling_contract 4 true [1, 2, 3] []).2 (by decide) (by decide)⟩

theorem set_then_eraseIdx {α : Type} (t : List α) (a b : α) (d : List α) (x : α) :
    ((t ++ a :: b :: d).set t.length x).eraseIdx (t.length + 1) = t ++ x :: d := by
  induction t with
  | nil => rfl
  | cons y ys ih => simpa [List.set, List.eraseIdx] using ih

theorem set_set_pair {α : Type} (t : List α) (a b : α) (d : List α) (x y : α) :
    ((t ++ a :: b :: d).set t.length x).set (t.length + 1) y = t ++ x :: y :: d := by
  induction t with
  | nil => rfl
  | cons z zs ih => simpa [List.set] using ih

theorem set_at_idx {α : Type} {t : List α} {i : Nat} (a : α) (d : List α) (x : α)
    (h : t.length = i) : (t ++ a :: d).set i x = t ++ x :: d := by
  subst h
  exact set_at_append t a d x

theorem eraseIdx_at_idx {α : Type} {t : List α} {i : Nat} (a : α) (d : List α)
    (h : t.length = i) : (t ++ a :: d).eraseIdx i = t ++ d := by
  subst h
  exact eraseIdx_at_append t a d

theorem insertIdx_at_idx {α : Type} {t : List α} {i : Nat} (d : List α) (x : α)
    (h : t.length = i) : (t ++ d).insertIdx i x = t ++ x :: d := by
  subst h
  exact insertIdx_at_append t d x

theorem set_then_eraseIdx_at {α : Type} {t : List α} {i : Nat} (a b : α) (d : List α) (x : α)
    (h : t.length = i) : ((t ++ a :: b :: d).set i x).eraseIdx (i + 1) = t ++ x :: d := by
  subst h
  exact set_then_eraseIdx t a b d x

theorem set_set_pair_at {α : Type} {t : List α} {i : Nat} (a b : α) (d : List α) (x y : α)
    (h : t.length = i) : ((t ++ a :: b :: d).set i x).set (i + 1) y = t ++ x :: y :: d := by
  subst h
  exact set_set_pair t a b d x y

theorem set_set_pair_at2 {α : Type} {t : List α} {i j : Nat} (a b : α) (d : List α) (x y : α)
    (h : t.length = i) (hj : j = i + 1) :
    ((t ++ a :: b :: d).set i x).set j y = t ++ x :: y :: d := by
  subst hj
  exact set_set_pair_at a b d x y h

theorem take_at_idx {α : Type} {t : List α} {i : Nat} (a : α) (d : List α)
    (h : t.length = i) : (t ++ a :: d).take i = t := by
  subst h
  exact take_at_append t a d

theorem drop_succ_at_idx {α : Type} {t : List α} {i : Nat} (a : α) (d : List α)
    (h : t.length = i) : (t ++ a :: d).drop (i + 1) = d := by
  subst h
  exact drop_succ_at_append t a d

theorem getLast?_decomp {α : Type} {l : List α} {a : α} (h : l.getLast? = some a) :
    l = l.dropLast ++ [a] := by
  induction l with
  | nil => simp at h
  | cons x xs ih =>
    cases xs with
    | nil =>
      have hx : x = a := by simpa using h
      rw [hx]
      rfl
    | cons y ys =>
      have h2 : (y :: ys).getLast? = some a := by
        rw [List.getLast?_cons_cons] at h
        exact h
      rw [List.dropLast_cons₂, List.cons_append]
      exact congrArg (x :: ·) (ih h2)

theorem height_pos (n : BNode) : 1 ≤ height n := by
  obtain ⟨lf, ks, cs⟩ := n
  rw [height]
  omega

theorem childrens_empty_of_height_one {n : BNode} (h : height n = 1) : n.childrens = [] := by
  obtain ⟨lf, ks, cs⟩ := n
  rw [height] at h
  cases cs with
  | nil => rfl
  | cons c cs2 =>
    rw [heightList] at h
    have := height_pos c
    omega

theorem shapeAll_mem {c : BNode} {cs : List BNode} (h : shapeAll cs = true) (hc : c ∈ cs) :
    shapeOk c = true := by
  induction cs with
  | nil => cases hc
  | cons d ds ih =>
    rw [shapeAll, Bool.and_eq_true] at h
    rcases List.mem_cons.mp hc with h1 | h2
    · exact h1 ▸ h.1
    · exact ih h.2 h2

theorem heightsEqual_eq {a b : BNode} {cs : List BNode} (h : heightsEqual cs = true)
    (ha : a ∈ cs) (hb : b ∈ cs) : height a = height b := by
  rw [heightsEqual, List.all_eq_true] at h
  have h1 := h a ha
  have h2 := h b hb
  rw [beq_iff_eq] at h1 h2
  omega

/-- A leaf sibling of a shape-correct node has no children (so the merge
branch that skips moving grandchildren loses nothing). -/
theorem sibling_childrens_empty {lf : Bool} {ks : List Int} {cs : List BNode} {l r : BNode}
    (hs : shapeOk (.mk lf ks cs) = true) (hl : l ∈ cs) (hr : r ∈ cs)
    (hleaf : l.is_leaf = true) : r.childrens = [] := by
  rw [shapeOk, Bool.and_eq_true] at hs
  have hlshape : shapeOk l = true := shapeAll_mem hs.2 hl
  have hlch : l.childrens = [] := by
    obtain ⟨llf, lks, lcs⟩ := l
    rw [shapeOk, Bool.and_eq_true] at hlshape
    rw [BNode.is_leaf_mk] at hleaf
    rw [hleaf] at hlshape
    simp only [if_true] at hlshape
    exact List.isEmpty_iff.mp hlshape.1
  have hlh : height l = 1 := by
    obtain ⟨llf, lks, lcs⟩ := l
    rw [BNode.childrens_mk] at hlch
    rw [hlch, height, heightList]
  have hcseq : heightsEqual cs = true := by
    rcases hs with ⟨hs1, _⟩
    cases hlf : lf
    · rw [hlf] at hs1
      simp only [Bool.false_eq_true, if_false, Bool.and_eq_true] at hs1
      exact hs1.2
    · rw [hlf] at hs1
      simp only [if_true] at hs1
      rw [List.isEmpty_iff.mp hs1] at hl
      cases hl
  exact childrens_empty_of_height_one ((heightsEqual_eq hcseq hr hl).trans hlh)

/-- C10: the restructuring helpers conserve the key multiset of the subtree:
`mergeSiblings`, `borrowFromRight` and `borrowFromLeft` leave it unchanged,
and `splitSibling` partitions it exactly into the remaining node, the
promoted median, and the new sibling. -/
theorem c10_helpers_conserve_keys :
    (∀ (node n' : BNode) (idx : Nat), shapeOk node = true →
      mergeSiblings node idx = some n' →
      (keysList n' : Multiset Int) = (keysList node : Multiset Int)) ∧
    (∀ (node n' : BNode) (idx : Nat), borrowFromRight node idx = some n' →
      (keysList n' : Multiset Int) = (keysList node : Multiset Int)) ∧
    (∀ (node n' : BNode) (idx : Nat), borrowFromLeft node idx = some n' →
      (keysList n' : Multiset Int) = (keysList node : Multiset Int)) ∧
    (∀ (order : Nat) (node n1 sib : BNode) (mv : Int),
      splitSibling order node = some (n1, mv, sib) →
      (keysList node : Multiset Int) =
        (keysList n1 : Multiset Int) + {mv} + (keysList sib : Multiset Int)) := by
  refine ⟨?_, ?_, ?_, ?_⟩
  · -- mergeSiblings conserves keys (shape makes sibling leafness agree)
    rintro ⟨lf, ks, cs⟩ n' idx hs h
    rw [mergeSiblings] at h
    split at h
    · rename_i key l r hk hl hr
      injection h with h
      subst h
      obtain ⟨tk, dk, hks, hlk⟩ := getElem?_decomp hk
      obtain ⟨tc, dc, hcs, hlc⟩ := getElem?_decomp2 hl hr
      subst hks
      subst hcs
      rw [keysList_def, keysList_def]
      rw [eraseIdx_at_idx key dk hlk]
      rw [set_then_eraseIdx_at l r dc _ hlc]
      simp only [keysListAll_append, keysListAll]
      rw [keysList_def]
      by_cases hleaf : l.is_leaf = true
      · have hrch : r.childrens = [] :=
          sibling_childrens_empty hs
            (by rw [List.mem_append]; exact Or.inr (List.mem_cons_self _ _))
            (by
              rw [List.mem_append]
              exact Or.inr (List.mem_cons_of_mem _ (List.mem_cons_self _ _)))
            hleaf
        rw [if_pos hleaf, keysList_proj l, keysList_proj r, hrch]
        simp only [keysListAll, List.append_nil, List.nil_append]
        simp only [← Multiset.coe_add, ← Multiset.cons_coe, ← Multiset.singleton_add]
        abel
      · rw [if_neg hleaf, keysList_proj l, keysList_proj r]
        try simp only [keysListAll_append]
        simp only [← Multiset.coe_add, ← Multiset.cons_coe, ← Multiset.singleton_add]
        abel
    · cases h
  · -- borrowFromRight conserves keys
    rintro ⟨lf, ks, cs⟩ n' idx h
    rw [borrowFromRight] at h
    split at h
    · rename_i key l r hk hl hr
      split at h
      · cases h
      · rename_i r0 rrest hrk
        obtain ⟨tk, dk, hks, hlk⟩ := getElem?_decomp hk
        obtain ⟨tc, dc, hcs, hlc⟩ := getElem?_decomp2 hl hr
        subst hks
        subst hcs
        split at h
        · injection h with h
          subst h
          rw [keysList_def, keysList_def]
          rw [set_at_idx key dk r0 hlk]
          rw [set_set_pair_at l r dc _ _ hlc]
          simp only [keysListAll_append, keysListAll]
          rw [keysList_def, keysList_def, keysList_proj l, keysList_proj r, hrk]
          try simp only [keysListAll, List.append_nil, List.nil_append]
          simp only [← Multiset.coe_add, ← Multiset.cons_coe, ← Multiset.singleton_add]
          abel
        · split at h
          · cases h
          · rename_i rc0 rcrest hrc
            injection h with h
            subst h
            rw [keysList_def, keysList_def]
            rw [set_at_idx key dk r0 hlk]
            rw [set_set_pair_at l r dc _ _ hlc]
            simp only [keysListAll_append, keysListAll]
            rw [keysList_def, keysList_def, keysList_proj l, keysList_proj r, hrk, hrc]
            try simp only [keysListAll_append, keysListAll, List.append_nil, List.nil_append]
            simp only [← Multiset.coe_add, ← Multiset.cons_coe, ← Multiset.singleton_add]
            abel
    · cases h
  · -- borrowFromLeft conserves keys
    rintro ⟨lf, ks, cs⟩ n' idx h
    rw [borrowFromLeft] at h
    split at h
    · cases h
    · rename_i hidx
      split at h
      · rename_i key l r hk hl hr
        split at h
        · cases h
        · rename_i lLast hlast
          have hidx2 : idx - 1 + 1 = idx := by omega
          obtain ⟨tk, dk, hks, hlk⟩ := getElem?_decomp hk
          obtain ⟨tc, dc, hcs, hlc⟩ := getElem?_decomp2 hl (by rw [hidx2]; exact hr)
          subst hks
          subst hcs
          have hkeys : l.keys = l.keys.dropLast ++ [lLast] := getLast?_decomp hlast
          split at h
          · injection h with h
            subst h
            rw [keysList_def, keysList_def]
            rw [set_at_idx key dk lLast hlk]
            rw [set_set_pair_at2 l r dc _ _ hlc (by omega)]
            simp only [keysListAll_append, keysListAll]
            rw [keysList_def, keysList_def, keysList_proj l, keysList_proj r]
            conv_rhs => rw [hkeys]
            try simp only [keysListAll, List.append_nil, List.nil_append]
            simp only [← Multiset.coe_add, ← Multiset.cons_coe, ← Multiset.singleton_add]
            abel
          · split at h
            · cases h
            · rename_i lcLast hlc2
              injection h with h
              subst h
              have hch : l.childrens = l.childrens.dropLast ++ [lcLast] := getLast?_decomp hlc2
              rw [keysList_def, keysList_def]
              rw [set_at_idx key dk lLast hlk]
              rw [set_set_pair_at2 l r dc _ _ hlc (by omega)]
              simp only [keysListAll_append, keysListAll]
              rw [keysList_def, keysList_def, keysList_proj l, keysList_proj r]
              conv_rhs => rw [hkeys, hch]
              try simp only [keysListAll_append, keysListAll, List.append_nil, List.nil_append]
              simp only [← Multiset.coe_add, ← Multiset.cons_coe, ← Multiset.singleton_add]
              abel
      · cases h
  · -- splitSibling partitions keys exactly
    rintro order ⟨lf, ks, cs⟩ n1 sib mv h
    rw [splitSibling] at h
    split at h
    · cases h
    · cases hm : ks[(order - 1) / 2]? with
      | none => rw [hm] at h; cases h
      | some midVal =>
        rw [hm] at h
        simp only [Option.some.injEq, Prod.mk.injEq] at h
        obtain ⟨h1, h2, h3⟩ := h
        subst h1
        subst h2
        subst h3
        obtain ⟨tk, dk, hks, hlk⟩ := getElem?_decomp hm
        subst hks
        rw [keysList_def, keysList_def, keysList_def]
        rw [take_at_idx midVal dk hlk]
        rw [drop_succ_at_idx midVal dk hlk]
        by_cases hleaf : lf = true
        · rw [if_pos hleaf, if_pos hleaf]
          try simp only [keysListAll, List.append_nil, List.nil_append]
          simp only [← Multiset.coe_add, ← Multiset.cons_coe, ← Multiset.singleton_add]
          abel
        · rw [if_neg hleaf, if_neg hleaf]
          have hsplit : keysListAll cs =
              keysListAll (cs.take ((order - 1) / 2 + 1)) ++
                keysListAll (cs.drop ((order - 1) / 2 + 1)) := by
            rw [← keysListAll_append, List.take_append_drop]
          conv_lhs => rw [hsplit]
          simp only [← Multiset.coe_add, ← Multiset.cons_coe, ← Multiset.singleton_add]
          abel

/-- Witness for C10: concrete instances of all four helpers.  Merging
`[3]` and `[7]` around separator 5, borrowing from a right sibling `[7,8]`,
borrowing from a left sibling `[2,3]`, and splitting the full leaf
`[1,2,3]` at order 4 all conserve the key multiset. -/
theorem c10_witness :
    ((keysList (BNode.mk false [] [.mk true [3, 5, 7] []]) : Multiset Int) =
      (keysList (BNode.mk false [5] [.mk true [3] [], .mk true [7] []]) : Multiset Int)) ∧
    ((keysList (BNode.mk false [7] [.mk true [3, 5] [], .mk true [8] []]) : Multiset Int) =
      (keysList (BNode.mk false [5] [.mk true [3] [], .mk true [7, 8] []]) : Multiset Int)) ∧
    ((keysList (BNode.mk false [3] [.mk true [2] [], .mk true [5, 7] []]) : Multiset Int) =
      (keysList (BNode.mk false [5] [.mk true [2, 3] [], .mk true [7] []]) : Multiset Int)) ∧
    ((keysList (BNode.mk true [1, 2, 3] []) : Multiset Int) =
      (keysList (BNode.mk true [1] []) : Multiset Int) + {2} +
        (keysList (BNode.mk true [3] []) : Multiset Int)) :=
  ⟨c10_helpers_conserve_keys.1 (.mk false [5] [.mk true [3] [], .mk true [7] []])
      (.mk false [] [.mk true [3, 5, 7] []]) 0 (by decide) rfl,
    c10_helpers_conserve_keys.2.1 (.mk false [5] [.mk true [3] [], .mk true [7, 8] []])
      (.mk false [7] [.mk true [3, 5] [], .mk true [8] []]) 0 rfl,
    c10_helpers_conserve_keys.2.2.1 (.mk false [5] [.mk true [2, 3] [], .mk true [7] []])
      (.mk false [3] [.mk true [2] [], .mk true [5, 7] []]) 1 rfl,
    c10_helpers_conserve_keys.2.2.2 4 (.mk true [1, 2, 3] [])
      (.mk true [1] []) (.mk true [3] []) 2 rfl⟩

theorem keyIndex_le_length (ks : List Int) (v : Int) : keyIndex ks v ≤ ks.length := by
  induction ks with
  | nil => exact le_refl _
  | cons k ks ih =>
    rw [keyIndex]
    split
    · simpa using ih
    · simp

theorem insertIdx_succ_at_append {α : Type} {t : List α} {i : Nat} (a : α) (d : List α) (x : α)
    (h : t.length = i) : (t ++ a :: d).insertIdx (i + 1) x = t ++ a :: x :: d := by
  subst h
  induction t with
  | nil => rfl
  | cons y ys ih => simpa [List.insertIdx] using ih

theorem getElem?_at_idx {α : Type} {t : List α} {i : Nat} (a : α) (d : List α)
    (h : t.length = i) : (t ++ a :: d)[i]? = some a := by
  subst h
  exact getElem?_at_append t a d

theorem getElem?_at_idx_succ {α : Type} {t : List α} {i : Nat} (a b : α) (d : List α)
    (h : t.length = i) : (t ++ a :: b :: d)[i + 1]? = some b := by
  subst h
  induction t with
  | nil => simp
  | cons y ys ih => simpa using ih

theorem keyIndex_insertIdx (ks : List Int) (v m : Int) :
    keyIndex (ks.insertIdx (keyIndex ks v) m) v =
      if m < v then keyIndex ks v + 1 else keyIndex ks v := by
  induction ks with
  | nil =>
    by_cases hm : m < v
    · simp [keyIndex, List.insertIdx, hm]
    · simp [keyIndex, List.insertIdx, hm]
  | cons k ks ih =>
    by_cases hk : k < v
    · have h0 : keyIndex (k :: ks) v = keyIndex ks v + 1 := by rw [keyIndex, if_pos hk]
      rw [h0]
      rw [show List.insertIdx (keyIndex ks v + 1) m (k :: ks) =
        k :: List.insertIdx (keyIndex ks v) m ks from rfl]
      rw [keyIndex, if_pos hk, ih]
      by_cases hm : m < v
      · rw [if_pos hm, if_pos hm]
      · rw [if_neg hm, if_neg hm]
    · have h0 : keyIndex (k :: ks) v = 0 := by rw [keyIndex, if_neg hk]
      rw [h0]
      rw [show List.insertIdx 0 m (k :: ks) = m :: k :: ks from rfl]
      rw [keyIndex, h0]

theorem childLinkAll_iff (cs : List BNode) :
    childLinkAll cs = true ↔ ∀ c ∈ cs, childLink c = true := by
  induction cs with
  | nil => simp [childLinkAll]
  | cons c cs ih =>
    rw [childLinkAll, Bool.and_eq_true, ih]
    constructor
    · rintro ⟨h1, h2⟩ d hd
      rcases List.mem_cons.mp hd with h3 | h4
      · exact h3 ▸ h1
      · exact h2 d h4
    · intro hall
      exact ⟨hall c (List.mem_cons_self _ _), fun d hd => hall d (List.mem_cons_of_mem _ hd)⟩

theorem leavesAtMostAll_iff (mx : Nat) (cs : List BNode) :
    leavesAtMostAll mx cs = true ↔ ∀ c ∈ cs, leavesAtMost mx c = true := by
  induction cs with
  | nil => simp [leavesAtMostAll]
  | cons c cs ih =>
    rw [leavesAtMostAll, Bool.and_eq_true, ih]
    constructor
    · rintro ⟨h1, h2⟩ d hd
      rcases List.mem_cons.mp hd with h3 | h4
      · exact h3 ▸ h1
      · exact h2 d h4
    · intro hall
      exact ⟨hall c (List.mem_cons_self _ _), fun d hd => hall d (List.mem_cons_of_mem _ hd)⟩

theorem splitSibling_some {order : Nat} {lf : Bool} {ks : List Int} {cs : List BNode}
    (hlen : ks.length = order - 1) (hord : 3 ≤ order) :
    ∃ mv, ks[(order - 1) / 2]? = some mv ∧
      splitSibling order (.mk lf ks cs) =
        some (.mk lf (ks.take ((order - 1) / 2)) (if lf then cs else cs.take ((order - 1) / 2 + 1)),
          mv,
          .mk lf (ks.drop ((order - 1) / 2 + 1))
            (if lf then [] else cs.drop ((order - 1) / 2 + 1))) := by
  have hmid : (order - 1) / 2 < ks.length := by omega
  refine ⟨ks[(order - 1) / 2], List.getElem?_eq_getElem hmid, ?_⟩
  rw [splitSibling, if_neg (by omega), List.getElem?_eq_getElem hmid]

/-- The two halves of a split of a full node keep the child-count law and the
leaf occupancy bound, and both are strictly under-full. -/
theorem splitSibling_pieces {order : Nat} {c c1 c2 : BNode} {mv : Int}
    (hord : 3 ≤ order) (h : splitSibling order c = some (c1, mv, c2))
    (hcl : childLink c = true) (hlm : leavesAtMost (order - 1) c = true) :
    childLink c1 = true ∧ childLink c2 = true ∧
    leavesAtMost (order - 1) c1 = true ∧ leavesAtMost (order - 1) c2 = true ∧
    (c1.is_leaf = true → c1.keys.length < order - 1) ∧
    (c2.is_leaf = true → c2.keys.length < order - 1) := by
  obtain ⟨clf, cks, ccs⟩ := c
  rw [splitSibling] at h
  split at h
  · cases h
  · rename_i hlen
    have hlen2 : cks.length = order - 1 := by omega
    cases hm : cks[(order - 1) / 2]? with
    | none => rw [hm] at h; cases h
    | some midVal =>
      rw [hm] at h
      simp only [Option.some.injEq, Prod.mk.injEq] at h
      obtain ⟨h1, h2, h3⟩ := h
      subst h1
      subst h2
      subst h3
      rw [childLink] at hcl
      rw [leavesAtMost] at hlm
      rw [Bool.and_eq_true] at hcl hlm
      have hmlt : (order - 1) / 2 < order - 1 := by omega
      cases clf with
      | true =>
        simp only [if_true_cond] at hcl hlm ⊢
        refine ⟨?_, ?_, ?_, ?_, ?_, ?_⟩
        · rw [childLink]
          simp only [if_true_cond]
          simpa using hcl.2
        · simp [childLink, childLinkAll]
        · rw [leavesAtMost]
          simp only [if_true_cond, Bool.and_eq_true, decide_eq_true_iff]
          refine ⟨?_, hlm.2⟩
          rw [List.length_take, hlen2]
          have hP : (order - 1) / 2 ⊓ (order - 1) ≤ order - 1 := Nat.min_le_right _ _
          simp [hP]
        · simp only [leavesAtMost, leavesAtMostAll, if_true_cond, Bool.and_eq_true,
            decide_eq_true_iff]
          refine ⟨?_, trivial⟩
          rw [List.length_drop, hlen2]
          have hP : order - 1 - ((order - 1) / 2 + 1) ≤ order - 1 := by omega
          simp [hP]
        · intro _
          rw [BNode.keys_mk, List.length_take, hlen2]
          exact lt_of_le_of_lt (Nat.min_le_left _ _) hmlt
        · intro _
          rw [BNode.keys_mk, List.length_drop, hlen2]
          omega
      | false =>
        simp only [if_false_cond] at hcl hlm ⊢
        have hcount : ccs.length = cks.length + 1 := by simpa using hcl.1
        have hall : childLinkAll ccs = true := hcl.2
        refine ⟨?_, ?_, ?_, ?_, ?_, ?_⟩
        · rw [childLink]
          simp only [if_false_cond, Bool.and_eq_true, decide_eq_true_iff]
          constructor
          · rw [List.length_take, List.length_take, hcount, hlen2,
              Nat.min_eq_left (by omega), Nat.min_eq_left (by omega)]
          · rw [childLinkAll_iff]
            exact fun d hd => (childLinkAll_iff ccs).mp hall d (List.take_subset _ _ hd)
        · rw [childLink]
          simp only [if_false_cond, Bool.and_eq_true, decide_eq_true_iff]
          constructor
          · rw [List.length_drop, List.length_drop, hcount, hlen2]
            omega
          · rw [childLinkAll_iff]
            exact fun d hd => (childLinkAll_iff ccs).mp hall d (List.drop_subset _ _ hd)
        · rw [leavesAtMost]
          simp only [if_false_cond, Bool.true_and]
          rw [leavesAtMostAll_iff]
          exact fun d hd => (leavesAtMostAll_iff _ ccs).mp hlm.2 d (List.take_subset _ _ hd)
        · rw [leavesAtMost]
          simp only [if_false_cond, Bool.true_and]
          rw [leavesAtMostAll_iff]
          exact fun d hd => (leavesAtMostAll_iff _ ccs).mp hlm.2 d (List.drop_subset _ _ hd)
        · intro hc1
          rw [BNode.is_leaf_mk] at hc1
          cases hc1
        · intro hc1
          rw [BNode.is_leaf_mk] at hc1
          cases hc1

theorem insertVal_leaf {order : Nat} {lf : Bool} {ks : List Int} {cs : List BNode} {v : Int}
    (hlf : lf = true) :
    insertVal order (.mk lf ks cs) v =
      if order - 1 ≤ ks.length then none
      else some (.mk lf (ks.insertIdx (keyIndex ks v) v) cs) := by
  rw [insertVal, if_pos hlf]

theorem insertVal_internal_oob {order : Nat} {lf : Bool} {ks : List Int} {cs : List BNode}
    {v : Int} (hlf : ¬lf = true) (hc : cs[keyIndex ks v]? = none) :
    insertVal order (.mk lf ks cs) v = none := by
  rw [insertVal, if_neg hlf]
  split
  · rfl
  · rename_i c heq
    rw [hc] at heq
    cases heq

theorem insertVal_internal_notfull {order : Nat} {lf : Bool} {ks : List Int} {cs : List BNode}
    {v : Int} {c : BNode} (hlf : ¬lf = true) (hc : cs[keyIndex ks v]? = some c)
    (hfull : ¬c.keys.length = order - 1) :
    insertVal order (.mk lf ks cs) v =
      (insertVal order c v).map fun u => .mk lf ks (cs.set (keyIndex ks v) u) := by
  rw [insertVal, if_neg hlf]
  split
  · rename_i heq
    rw [hc] at heq
    cases heq
  · rename_i c0 heq
    rw [hc] at heq
    injection heq with heq
    subst heq
    rw [if_neg hfull]

theorem insertVal_internal_full {order : Nat} {lf : Bool} {ks : List Int} {cs : List BNode}
    {v : Int} {c c1 c2 ctgt : BNode} {mv : Int}
    (hlf : ¬lf = true) (hc : cs[keyIndex ks v]? = some c)
    (hfull : c.keys.length = order - 1)
    (hsp : splitSibling order c = some (c1, mv, c2))
    (htgt : ((cs.set (keyIndex ks v) c1).insertIdx (keyIndex ks v + 1) c2)[
        keyIndex (ks.insertIdx (keyIndex ks v) mv) v]? = some ctgt) :
    insertVal order (.mk lf ks cs) v =
      (insertVal order ctgt v).map fun u =>
        .mk lf (ks.insertIdx (keyIndex ks v) mv)
          (((cs.set (keyIndex ks v) c1).insertIdx (keyIndex ks v + 1) c2).set
            (keyIndex (ks.insertIdx (keyIndex ks v) mv) v) u) := by
  rw [insertVal, if_neg hlf]
  split
  · rename_i heq
    rw [hc] at heq
    cases heq
  · rename_i c0 heq
    rw [hc] at heq
    injection heq with heq
    subst heq
    rw [if_pos hfull]
    split
    · rename_i heq2
      rw [hsp] at heq2
      cases heq2
    · rename_i r heq2
      rw [hsp] at heq2
      injection heq2 with heq2
      subst heq2
      dsimp only
      split
      · rename_i heq3
        rw [htgt] at heq3
        cases heq3
      · rename_i ct heq3
        rw [htgt] at heq3
        injection heq3 with heq3
        subst heq3
        rfl

theorem splitSibling_some2 {order : Nat} {c : BNode} (hlen : c.keys.length = order - 1)
    (hord : 3 ≤ order) : ∃ c1 mv c2, splitSibling order c = some (c1, mv, c2) := by
  obtain ⟨lf, ks, cs⟩ := c
  obtain ⟨mv, hmv, hsp⟩ := @splitSibling_some _ lf ks cs (by simpa using hlen) hord
  exact ⟨_, mv, _, hsp⟩

theorem insertVal_some (order : Nat) (hord : 3 ≤ order) :
    ∀ (fuel : Nat) (n : BNode) (v : Int), height n ≤ fuel →
      childLink n = true → leavesAtMost (order - 1) n = true →
      (n.is_leaf = true → n.keys.length < order - 1) →
      ∃ n', insertVal order n v = some n' := by
  intro fuel
  induction fuel with
  | zero =>
    rintro ⟨lf, ks, cs⟩ v hh
    rw [height] at hh
    exact absurd hh (by omega)
  | succ m ih =>
    rintro ⟨lf, ks, cs⟩ v hh hcl hlm hlb
    simp only [BNode.is_leaf_mk, BNode.keys_mk] at hlb
    by_cases hlf : lf = true
    · rw [insertVal_leaf hlf, if_neg (by have h5 := hlb hlf; omega)]
      exact ⟨_, rfl⟩
    · rw [childLink, if_neg hlf, Bool.and_eq_true, decide_eq_true_iff] at hcl
      obtain ⟨hcount, hall⟩ := hcl
      rw [leavesAtMost, if_neg hlf, Bool.and_eq_true] at hlm
      have hidx := keyIndex_le_length ks v
      have hidxlt : keyIndex ks v < cs.length := by omega
      obtain ⟨c, hc⟩ : ∃ c, cs[keyIndex ks v]? = some c :=
        ⟨cs[keyIndex ks v], List.getElem?_eq_getElem hidxlt⟩
      have hcmem : c ∈ cs := List.getElem?_mem hc
      have hch : height c ≤ m := by
        have h6 : height c < height (BNode.mk lf ks cs) := height_lt_of_mem hcmem
        rw [height] at hh
        rw [height] at h6
        omega
      have hccl : childLink c = true := (childLinkAll_iff cs).mp hall c hcmem
      have hclm : leavesAtMost (order - 1) c = true :=
        (leavesAtMostAll_iff _ cs).mp hlm.2 c hcmem
      by_cases hfull : c.keys.length = order - 1
      · obtain ⟨tc, dc, hdecomp, hlent⟩ := getElem?_decomp hc
        obtain ⟨c1, mv, c2, hsp⟩ := splitSibling_some2 hfull hord
        obtain ⟨hp1, hp2, hp3, hp4, hp5, hp6⟩ := splitSibling_pieces hord hsp hccl hclm
        have hhts := splitSibling_height hsp
        subst hdecomp
        have h7 : ((tc ++ c :: dc).set (keyIndex ks v) c1).insertIdx (keyIndex ks v + 1) c2
            = tc ++ c1 :: c2 :: dc := by
          rw [set_at_idx c dc c1 hlent, insertIdx_succ_at_append c1 dc c2 hlent]
        have hidx2 := keyIndex_insertIdx ks v mv
        by_cases hmvv : mv < v
        · have htgt : (((tc ++ c :: dc).set (keyIndex ks v) c1).insertIdx
              (keyIndex ks v + 1) c2)[keyIndex (ks.insertIdx (keyIndex ks v) mv) v]? =
              some c2 := by
            rw [h7, hidx2, if_pos hmvv]
            exact getElem?_at_idx_succ c1 c2 dc hlent
          rw [insertVal_internal_full hlf hc hfull hsp htgt]
          obtain ⟨u, hu⟩ := ih c2 v (le_trans hhts.2 hch) hp2 hp4 hp6
          rw [hu]
          exact ⟨_, rfl⟩
        · have htgt : (((tc ++ c :: dc).set (keyIndex ks v) c1).insertIdx
              (keyIndex ks v + 1) c2)[keyIndex (ks.insertIdx (keyIndex ks v) mv) v]? =
              some c1 := by
            rw [h7, hidx2, if_neg hmvv]
            exact getElem?_at_idx c1 (c2 :: dc) hlent
          rw [insertVal_internal_full hlf hc hfull hsp htgt]
          obtain ⟨u, hu⟩ := ih c1 v (le_trans hhts.1 hch) hp1 hp3 hp5
          rw [hu]
          exact ⟨_, rfl⟩
      · have hcb : c.is_leaf = true → c.keys.length < order - 1 := by
          intro hcleaf
          have h8 : c.keys.length ≤ order - 1 := by
            obtain ⟨clf, cks, ccs⟩ := c
            rw [leavesAtMost] at hclm
            rw [BNode.is_leaf_mk] at hcleaf
            rw [if_pos hcleaf, Bool.and_eq_true, decide_eq_true_iff] at hclm
            simpa using hclm.1
          omega
        obtain ⟨u, hu⟩ := ih c v hch hccl hclm hcb
        rw [insertVal_internal_notfull hlf hc hfull, hu]
        exact ⟨_, rfl⟩

theorem BTree_insert_full {t : BTree} {v : Int} {c1 c2 : BNode} {mv : Int}
    (hfull : t.root.keys.length = t.order - 1)
    (hsp : splitSibling t.order t.root = some (c1, mv, c2)) :
    t.insert v = (insertVal t.order (.mk false [mv] [c1, c2]) v).map fun n => ⟨t.order, n⟩ := by
  rw [BTree.insert, if_pos hfull]
  split
  · rename_i heq
    rw [hsp] at heq
    cases heq
  · rename_i r heq
    rw [hsp] at heq
    injection heq with heq
    subst heq
    rfl

theorem BTree_insert_notfull {t : BTree} {v : Int}
    (hfull : ¬t.root.keys.length = t.order - 1) :
    t.insert v = (insertVal t.order t.root v).map fun n => ⟨t.order, n⟩ := by
  rw [BTree.insert, if_neg hfull]

theorem leavesAtMost_leaf_bound {mx : Nat} {n : BNode} (h : leavesAtMost mx n = true)
    (hl : n.is_leaf = true) : n.keys.length ≤ mx := by
  obtain ⟨lf, ks, cs⟩ := n
  simp only [BNode.is_leaf_mk] at hl
  subst hl
  rw [leavesAtMost, Bool.and_eq_true] at h
  simpa using h.1

/-- C7: on trees satisfying the structural invariants (child-count law and
every leaf at most `order - 1` keys — true of every reachable tree, including
those whose merge-then-collapse has left the root itself with more than
`order - 1` keys), `insert` always completes: the root pre-split and the
split-before-descent discipline keep `insertVal` away from full leaves, so the
internal-invariant error is unreachable. -/
theorem c7_insert_never_errors (t : BTree) (v : Int) (h1 : 3 ≤ t.order)
    (h2 : childLink t.root = true) (h3 : leavesAtMost (t.order - 1) t.root = true) :
    ∃ t', t.insert v = some t' := by
  by_cases hfull : t.root.keys.length = t.order - 1
  · obtain ⟨c1, mv, c2, hsp⟩ := splitSibling_some2 hfull h1
    obtain ⟨hp1, hp2, hp3, hp4, hp5, hp6⟩ := splitSibling_pieces h1 hsp h2 h3
    have hnr : childLink (.mk false [mv] [c1, c2]) = true := by
      simp [childLink, childLinkAll, hp1, hp2]
    have hnl : leavesAtMost (t.order - 1) (.mk false [mv] [c1, c2]) = true := by
      simp [leavesAtMost, leavesAtMostAll, hp3, hp4]
    obtain ⟨u, hu⟩ := insertVal_some t.order h1 (height (BNode.mk false [mv] [c1, c2]))
      (.mk false [mv] [c1, c2]) v (le_refl _) hnr hnl (by simp)
    rw [BTree_insert_full hfull hsp, hu]
    exact ⟨_, rfl⟩
  · obtain ⟨u, hu⟩ := insertVal_some t.order h1 (height t.root) t.root v (le_refl _) h2 h3
      (fun hl => by have := leavesAtMost_leaf_bound h3 hl; omega)
    rw [BTree_insert_notfull hfull, hu]
    exact ⟨_, rfl⟩

/-- Witness for C7: inserting 9 succeeds even on the reachable order-3 tree
`[1,1,1] / [[1],[],[],[2]]` whose root holds 3 > order - 1 keys (a
merge-then-collapse by-product): the child-count law and the leaf bound hold
there and they alone guarantee success. -/
theorem c7_witness :
    3 ≤ (3 : Nat) ∧
    childLink (BNode.mk false [1, 1, 1]
      [.mk true [1] [], .mk true [] [], .mk true [] [], .mk true [2] []]) = true ∧
    leavesAtMost (3 - 1) (BNode.mk false [1, 1, 1]
      [.mk true [1] [], .mk true [] [], .mk true [] [], .mk true [2] []]) = true ∧
    ∃ t', BTree.insert ⟨3, .mk false [1, 1, 1]
      [.mk true [1] [], .mk true [] [], .mk true [] [], .mk true [2] []]⟩ 9 = some t' :=
  ⟨by decide, by decide, by decide,
    c7_insert_never_errors ⟨3, .mk false [1, 1, 1]
      [.mk true [1] [], .mk true [] [], .mk true [] [], .mk true [2] []]⟩ 9
      (by decide) (by decide) (by decide)⟩


/-! ### C3: `find` agrees with membership on well-formed trees -/

theorem sortedB_tail {k : Int} {ks : List Int} (h : sortedB (k :: ks) = true) :
    sortedB ks = true := by
  cases ks with
  | nil => rfl
  | cons b rest =>
    rw [sortedB, Bool.and_eq_true] at h
    exact h.2

theorem sortedB_head_le {k x : Int} {ks : List Int} (h : sortedB (k :: ks) = true)
    (hx : x ∈ ks) : k ≤ x := by
  induction ks generalizing k with
  | nil => cases hx
  | cons b rest ih =>
    rw [sortedB, Bool.and_eq_true, decide_eq_true_eq] at h
    rcases List.mem_cons.mp hx with h1 | h2
    · exact h1 ▸ h.1
    · exact le_trans h.1 (ih h.2 h2)

theorem sortedB_le_of_le {ks : List Int} {i j : Nat} {a b : Int} (h : sortedB ks = true)
    (ha : ks[i]? = some a) (hb : ks[j]? = some b) (hij : i ≤ j) : a ≤ b := by
  induction ks generalizing i j with
  | nil => simp at ha
  | cons k rest ih =>
    cases i with
    | zero =>
      simp at ha
      cases j with
      | zero => simp at hb; omega
      | succ m =>
        simp at hb
        have := sortedB_head_le h (List.getElem?_mem hb)
        omega
    | succ n =>
      cases j with
      | zero => omega
      | succ m =>
        simp at ha hb
        exact ih (sortedB_tail h) ha hb (by omega)

theorem keyIndex_lt_of_lt {ks : List Int} {v k : Int} {j : Nat}
    (hj : j < keyIndex ks v) (hk : ks[j]? = some k) : k < v := by
  induction ks generalizing j with
  | nil => rw [keyIndex] at hj; omega
  | cons a rest ih =>
    rw [keyIndex] at hj
    by_cases hav : a < v
    · rw [if_pos hav] at hj
      cases j with
      | zero => simp at hk; omega
      | succ m =>
        simp at hk
        exact ih (by omega) hk
    · rw [if_neg hav] at hj
      omega

theorem keyIndex_le_key {ks : List Int} {v k : Int}
    (hk : ks[keyIndex ks v]? = some k) : v ≤ k := by
  induction ks with
  | nil => simp at hk
  | cons a rest ih =>
    rw [keyIndex] at hk
    by_cases hav : a < v
    · rw [if_pos hav] at hk
      simp at hk
      exact ih hk
    · rw [if_neg hav] at hk
      simp at hk
      omega

theorem keyIndex_mem_sorted {ks : List Int} {v : Int} (hs : sortedB ks = true)
    (hv : v ∈ ks) : ks[keyIndex ks v]? = some v := by
  induction ks with
  | nil => cases hv
  | cons a rest ih =>
    rw [keyIndex]
    by_cases hav : a < v
    · rw [if_pos hav]
      rcases List.mem_cons.mp hv with h1 | h2
      · exact absurd h1 (by omega)
      · simpa using ih (sortedB_tail hs) h2
    · rw [if_neg hav]
      rcases List.mem_cons.mp hv with h1 | h2
      · simp [h1]
      · have h3 := sortedB_head_le hs h2
        have h4 : a = v := by omega
        simp [h4]

theorem mem_keysListAll_exists {cs : List BNode} {x : Int} (h : x ∈ keysListAll cs) :
    ∃ (i : Nat) (c : BNode), cs[i]? = some c ∧ x ∈ keysList c := by
  induction cs with
  | nil => simp [keysListAll] at h
  | cons c rest ih =>
    rw [keysListAll] at h
    rcases List.mem_append.mp h with h1 | h2
    · exact ⟨0, c, by simp, h1⟩
    · obtain ⟨i, c2, hi, hx⟩ := ih h2
      exact ⟨i + 1, c2, by simpa using hi, hx⟩

theorem kidsOrdered_facts : ∀ (ks : List Int) (lo : Option Int) (cs : List BNode),
    kidsOrdered lo ks cs = true →
    cs.length = ks.length + 1 ∧
    (∀ (i : Nat) (c : BNode), cs[i]? = some c → orderedNode c = true) ∧
    (∀ (c : BNode) (x : Int), cs[0]? = some c → x ∈ keysList c → lbOk lo x = true) ∧
    (∀ (i : Nat) (c : BNode) (k x : Int),
      cs[i]? = some c → ks[i]? = some k → x ∈ keysList c → x ≤ k) ∧
    (∀ (i : Nat) (c : BNode) (k x : Int),
      cs[i + 1]? = some c → ks[i]? = some k → x ∈ keysList c → k ≤ x) := by
  intro ks
  induction ks with
  | nil =>
    intro lo cs h
    cases cs with
    | nil => simp [kidsOrdered] at h
    | cons c cs2 =>
      cases cs2 with
      | cons d rest => simp [kidsOrdered] at h
      | nil =>
        have h2 : orderedNode c = true ∧ ∀ x ∈ keysList c, lbOk lo x = true := by
          simpa [kidsOrdered, List.all_eq_true, Bool.and_eq_true] using h
        refine ⟨rfl, ?_, ?_, ?_, ?_⟩
        · intro i c2 hi
          cases i with
          | zero => simp at hi; exact hi ▸ h2.1
          | succ m => simp at hi
        · intro c2 x h0 hx
          simp at h0
          subst h0
          exact h2.2 x hx
        · intro i c2 k x hi hk hx
          simp at hk
        · intro i c2 k x hi hk hx
          simp at hk
  | cons k ks ih =>
    intro lo cs h
    cases cs with
    | nil => simp [kidsOrdered] at h
    | cons c cs2 =>
      have h2 : orderedNode c = true ∧
          (∀ x ∈ keysList c, lbOk lo x = true ∧ x ≤ k) ∧
          kidsOrdered (some k) ks cs2 = true := by
        simpa [kidsOrdered, List.all_eq_true, Bool.and_eq_true, decide_eq_true_eq,
          and_assoc] using h
      obtain ⟨hc, hall, hrest⟩ := h2
      obtain ⟨hlen, hord, hlb, hup, hlow⟩ := ih (some k) cs2 hrest
      refine ⟨by simp [hlen], ?_, ?_, ?_, ?_⟩
      · intro i c2 hi
        cases i with
        | zero => simp at hi; exact hi ▸ hc
        | succ m => exact hord m c2 (by simpa using hi)
      · intro c2 x h0 hx
        simp at h0
        exact (hall x (h0 ▸ hx)).1
      · intro i c2 kk x hi hk hx
        cases i with
        | zero =>
          simp at hi hk
          exact hk ▸ (hall x (hi ▸ hx)).2
        | succ m =>
          exact hup m c2 kk x (by simpa using hi) (by simpa using hk) hx
      · intro i c2 kk x hi hk hx
        cases i with
        | zero =>
          simp at hk
          have h5 := hlb c2 x (by simpa using hi) hx
          rw [lbOk, decide_eq_true_eq] at h5
          omega
        | succ m =>
          exact hlow m c2 kk x (by simpa using hi) (by simpa using hk) hx

theorem findVal_found {lf : Bool} {ks : List Int} {cs : List BNode} {v : Int}
    (h : ks[keyIndex ks v]? = some v) : findVal (.mk lf ks cs) v = true := by
  rw [findVal]
  simp [h]

theorem findVal_descend {ks : List Int} {cs : List BNode} {v : Int} {c : BNode}
    (h1 : ¬ ks[keyIndex ks v]? = some v) (h3 : cs[keyIndex ks v]? = some c) :
    findVal (.mk false ks cs) v = findVal c v := by
  rw [findVal]
  rw [if_neg h1]
  simp only [Bool.false_eq_true, if_false]
  split
  · rename_i heq
    rw [h3] at heq
    cases heq
  · rename_i c2 heq
    rw [h3] at heq
    injection heq with heq
    subst heq
    rfl

theorem mem_findVal : ∀ n (v : Int), shapeOk n = true → orderedNode n = true →
    v ∈ keysList n → findVal n v = true := by
  have H : ∀ h n (v : Int), height n ≤ h → shapeOk n = true → orderedNode n = true →
      v ∈ keysList n → findVal n v = true := by
    intro h
    induction h with
    | zero =>
      intro n v hh
      obtain ⟨lf, ks, cs⟩ := n
      rw [height] at hh
      omega
    | succ m ih =>
      intro n v hh hs ho hv
      obtain ⟨lf, ks, cs⟩ := n
      by_cases h1 : ks[keyIndex ks v]? = some v
      · exact findVal_found h1
      · rw [keysList_def, List.mem_append] at hv
        have hsort : sortedB ks = true := by
          rw [orderedNode, Bool.and_eq_true] at ho
          exact ho.1
        have hvks : v ∉ ks := fun hmem => h1 (keyIndex_mem_sorted hsort hmem)
        rcases hv with hv1 | hv2
        · exact absurd hv1 hvks
        obtain ⟨i, c, hi, hx⟩ := mem_keysListAll_exists hv2
        cases hlf : lf with
        | true =>
          rw [hlf] at hs
          have hcs : cs = [] := by
            rw [shapeOk, Bool.and_eq_true] at hs
            simpa [List.isEmpty_iff] using hs.1
          rw [hcs] at hi
          simp at hi
        | false =>
          rw [hlf] at hs ho
          have hsh : cs.length = ks.length + 1 ∧ shapeAll cs = true := by
            rw [shapeOk] at hs
            simp only [Bool.false_eq_true, if_false, Bool.and_eq_true,
              decide_eq_true_eq] at hs
            exact ⟨hs.1.1, hs.2⟩
          have hko : kidsOrdered none ks cs = true := by
            rw [orderedNode, Bool.and_eq_true] at ho
            simpa using ho.2
          obtain ⟨hlen, hordc, _, hup, hlow⟩ := kidsOrdered_facts ks none cs hko
          have hilen : i < cs.length := by
            by_contra hcon
            rw [List.getElem?_eq_none (by omega)] at hi
            cases hi
          rcases Nat.lt_trichotomy i (keyIndex ks v) with hlt | heq | hgt
          · -- v sits in a child left of the descent index: its keys are < v, absurd
            have hik : i < ks.length := lt_of_lt_of_le hlt (keyIndex_le_length ks v)
            have hk : ks[i]? = some ks[i] := List.getElem?_eq_getElem hik
            have hle : v ≤ ks[i] := hup i c ks[i] v hi hk hx
            have hgt2 : ks[i] < v := keyIndex_lt_of_lt hlt hk
            omega
          · -- the descent child: recurse
            rw [heq] at hi
            rw [findVal_descend h1 hi]
            have hcm : c ∈ cs := List.getElem?_mem hi
            have hht : height c < height (BNode.mk false ks cs) := height_lt_of_mem hcm
            rw [height] at hh
            rw [height] at hht
            exact ih c v (by omega) (shapeAll_mem hsh.2 hcm) (hordc _ c hi) hx
          · -- v sits in a child right of the descent index: forces ks[idx] = v, absurd
            obtain ⟨j, hj⟩ : ∃ j, i = j + 1 := ⟨i - 1, by omega⟩
            subst hj
            have hjk : j < ks.length := by omega
            have hk : ks[j]? = some ks[j] := List.getElem?_eq_getElem hjk
            have hge : ks[j] ≤ v := hlow j c ks[j] v hi hk hx
            have hidxk : keyIndex ks v < ks.length := by omega
            have hk0 : ks[keyIndex ks v]? = some ks[keyIndex ks v] :=
              List.getElem?_eq_getElem hidxk
            have hvle : v ≤ ks[keyIndex ks v] := keyIndex_le_key hk0
            have hmono : ks[keyIndex ks v] ≤ ks[j] :=
              sortedB_le_of_le hsort hk0 hk (by omega)
            have h6 : ks[keyIndex ks v]? = some v := by
              rw [hk0]
              exact congrArg some (by omega)
            exact absurd h6 h1
  exact fun n v => H (height n) n v (le_refl _)

/-- C3: on a tree satisfying the structural invariant (leaves childless,
internal nodes with `keys + 1` children of equal height) and the search-order
invariant, `find(v)` returns `true` exactly when a key equal to `v` occurs
somewhere in the tree. -/
theorem c3_find_iff_mem (t : BTree) (v : Int) (hs : shapeOk t.root = true)
    (ho : orderedNode t.root = true) :
    t.find v = true ↔ v ∈ keysList t.root := by
  constructor
  · exact fun h => findVal_mem _ _ h
  · exact fun h => mem_findVal _ _ hs ho h

/-- Witness for C3: on the order-3 tree `[2] / [[1],[3]]` the equivalence holds
at `v = 3`. -/
theorem c3_witness :
    shapeOk (BNode.mk false [2] [.mk true [1] [], .mk true [3] []]) = true ∧
    orderedNode (BNode.mk false [2] [.mk true [1] [], .mk true [3] []]) = true ∧
    (BTree.find ⟨3, .mk false [2] [.mk true [1] [], .mk true [3] []]⟩ 3 = true ↔
      (3 : Int) ∈ keysList (BNode.mk false [2] [.mk true [1] [], .mk true [3] []])) :=
  ⟨by decide, by decide,
    c3_find_iff_mem ⟨3, .mk false [2] [.mk true [1] [], .mk true [3] []]⟩ 3
      (by decide) (by decide)⟩


/-! ### C8: ordering invariant and the side ties descend into -/

theorem shapeOk_shapeAll {lf : Bool} {ks : List Int} {cs : List BNode}
    (hs : shapeOk (.mk lf ks cs) = true) : shapeAll cs = true := by
  rw [shapeOk, Bool.and_eq_true] at hs
  exact hs.2

theorem shapeOk_ordered_of_InTree {n r : BNode} (h : InTree n r) :
    shapeOk r = true → orderedNode r = true →
    shapeOk n = true ∧ orderedNode n = true := by
  induction h with
  | refl => exact fun hs ho => ⟨hs, ho⟩
  | child hc hin ih =>
    rename_i c r
    intro hs ho
    obtain ⟨lf, ks, cs⟩ := r
    have hsc : shapeOk c = true := shapeAll_mem (shapeOk_shapeAll hs) hc
    cases hlf : lf with
    | true =>
      rw [hlf] at hs
      have hcs : cs = [] := by
        rw [shapeOk, Bool.and_eq_true] at hs
        simpa [List.isEmpty_iff] using hs.1
      rw [hcs] at hc
      cases hc
    | false =>
      rw [hlf] at ho
      have hko : kidsOrdered none ks cs = true := by
        rw [orderedNode, Bool.and_eq_true] at ho
        simpa using ho.2
      obtain ⟨i, hi⟩ := List.mem_iff_getElem?.mp hc
      exact ih hsc ((kidsOrdered_facts ks none cs hko).2.1 i c hi)

theorem shapeOk_ordered_in_tree {n r : BNode} (hs : shapeOk r = true)
    (ho : orderedNode r = true) (h : InTree n r) :
    shapeOk n = true ∧ orderedNode n = true :=
  shapeOk_ordered_of_InTree h hs ho

/-- C8: on a tree satisfying the structural and search-order invariants, every
internal node's key bounds its adjacent child subtrees (`children[i]` holds
keys `≤ keys[i]`, `children[i+1]` holds keys `≥ keys[i]`); and inserting a
value equal to an existing key of an internal node descends into the LEFT
child subtree `children[i]` of the tying key (leaving every other child, in
particular `children[i+1]`, untouched) whenever that child is not full. -/
theorem c8_order_invariant_and_tie_direction (t : BTree) (v : Int)
    (hs : shapeOk t.root = true) (ho : orderedNode t.root = true) :
    (∀ n : BNode, InTree n t.root → n.is_leaf = false →
      ∀ (i : Nat) (k : Int), n.keys[i]? = some k →
        (∀ c : BNode, n.childrens[i]? = some c → ∀ x ∈ keysList c, x ≤ k) ∧
        (∀ c : BNode, n.childrens[i + 1]? = some c → ∀ x ∈ keysList c, k ≤ x)) ∧
    (∀ (order : Nat) (n c : BNode), InTree n t.root → n.is_leaf = false →
      n.keys[keyIndex n.keys v]? = some v →
      n.childrens[keyIndex n.keys v]? = some c →
      ¬c.keys.length = order - 1 →
      insertVal order n v =
        (insertVal order c v).map
          (fun u => .mk false n.keys (n.childrens.set (keyIndex n.keys v) u))) := by
  constructor
  · intro n hin hlf i k hk
    obtain ⟨hsn, hon⟩ := shapeOk_ordered_in_tree hs ho hin
    obtain ⟨nlf, nks, ncs⟩ := n
    simp only [BNode.is_leaf_mk] at hlf
    rw [hlf] at hon
    have hko : kidsOrdered none nks ncs = true := by
      rw [orderedNode, Bool.and_eq_true] at hon
      simpa using hon.2
    obtain ⟨_, _, _, hup, hlow⟩ := kidsOrdered_facts nks none ncs hko
    simp only [BNode.keys_mk] at hk
    constructor
    · intro c hc x hx
      simp only [BNode.childrens_mk] at hc
      exact hup i c k x hc hk hx
    · intro c hc x hx
      simp only [BNode.childrens_mk] at hc
      exact hlow i c k x hc hk hx
  · intro order n c _hin hlf _htie hc hfull
    obtain ⟨nlf, nks, ncs⟩ := n
    simp only [BNode.is_leaf_mk] at hlf
    subst hlf
    exact insertVal_internal_notfull (by simp) hc hfull


/-! ### C9: the root is never left as a zero-key internal node -/

theorem getElem?_lt {α : Type} {l : List α} {i : Nat} {a : α} (h : l[i]? = some a) :
    i < l.length := by
  by_contra hcon
  rw [List.getElem?_eq_none (by omega)] at h
  cases h

theorem length_insertIdx_ge {α : Type} (n : Nat) (b : α) (l : List α) :
    l.length ≤ (List.insertIdx n b l).length := by
  induction l generalizing n with
  | nil =>
    cases n with
    | zero => simp [List.insertIdx]
    | succ m => simp [List.insertIdx]
  | cons x xs ih =>
    cases n with
    | zero => simp [List.insertIdx]
    | succ m =>
      rw [List.insertIdx]
      simpa using ih m

theorem length_eraseIdx_lt {α : Type} {l : List α} {i : Nat} (h : i < l.length) :
    (l.eraseIdx i).length = l.length - 1 := by
  induction l generalizing i with
  | nil => simp at h
  | cons x xs ih =>
    cases i with
    | zero => simp [List.eraseIdx]
    | succ j =>
      have hj : j < xs.length := by simpa using h
      rw [List.eraseIdx, List.length_cons, ih hj, List.length_cons]
      omega

theorem insertVal_top_shape {order : Nat} {lf : Bool} {ks : List Int} {cs : List BNode}
    {v : Int} {n' : BNode} (h : insertVal order (.mk lf ks cs) v = some n') :
    ∃ ks' cs', n' = .mk lf ks' cs' ∧ ks.length ≤ ks'.length := by
  rw [insertVal] at h
  by_cases hlf : lf = true
  · rw [if_pos hlf] at h
    split at h
    · cases h
    · injection h with h
      exact ⟨_, _, h.symm, length_insertIdx_ge _ _ _⟩
  · rw [if_neg hlf] at h
    split at h
    · cases h
    · rename_i c hc
      split at h
      · split at h
        · cases h
        · rename_i r hsp
          dsimp only at h
          split at h
          · cases h
          · rename_i c2 hc2
            obtain ⟨u, hu, h2⟩ := Option.map_eq_some'.mp h
            exact ⟨_, _, h2.symm, length_insertIdx_ge _ _ _⟩
      · obtain ⟨u, hu, h2⟩ := Option.map_eq_some'.mp h
        exact ⟨_, _, h2.symm, le_refl _⟩

theorem borrowFromLeft_shape {lf : Bool} {ks : List Int} {cs : List BNode} {idx : Nat}
    {n' : BNode} (h : borrowFromLeft (.mk lf ks cs) idx = some n') :
    ∃ ks' cs', n' = .mk lf ks' cs' ∧ ks'.length = ks.length ∧ 1 ≤ ks.length := by
  rw [borrowFromLeft] at h
  split at h
  · cases h
  · rename_i hidx
    split at h
    · rename_i key l r hk hl hr
      split at h
      · cases h
      · rename_i lLast hlast
        split at h
        · injection h with h
          exact ⟨_, _, h.symm, by simp, by have := getElem?_lt hk; omega⟩
        · split at h
          · cases h
          · rename_i lcLast hlc
            injection h with h
            exact ⟨_, _, h.symm, by simp, by have := getElem?_lt hk; omega⟩
    · cases h

theorem borrowFromRight_shape {lf : Bool} {ks : List Int} {cs : List BNode} {idx : Nat}
    {n' : BNode} (h : borrowFromRight (.mk lf ks cs) idx = some n') :
    ∃ ks' cs', n' = .mk lf ks' cs' ∧ ks'.length = ks.length ∧ 1 ≤ ks.length := by
  rw [borrowFromRight] at h
  split at h
  · rename_i key l r hk hl hr
    split at h
    · cases h
    · rename_i r0 rrest hrk
      split at h
      · injection h with h
        exact ⟨_, _, h.symm, by simp, by have := getElem?_lt hk; omega⟩
      · split at h
        · cases h
        · rename_i rc0 rcrest hrc
          injection h with h
          exact ⟨_, _, h.symm, by simp, by have := getElem?_lt hk; omega⟩
  · cases h

theorem mergeSiblings_shape {lf : Bool} {ks : List Int} {cs : List BNode} {idx : Nat}
    {n' : BNode} (h : mergeSiblings (.mk lf ks cs) idx = some n') :
    ∃ cs', n' = .mk lf (ks.eraseIdx idx) cs' ∧ idx + 1 ≤ ks.length ∧
      ∃ mg, cs'[idx]? = some mg ∧ 1 ≤ mg.keys.length := by
  rw [mergeSiblings] at h
  split at h
  · rename_i key l r hk hl hr
    injection h with h
    obtain ⟨tc, dc, hcs, hlc⟩ := getElem?_decomp2 hl hr
    subst hcs
    refine ⟨_, h.symm, by have := getElem?_lt hk; omega, ?_⟩
    rw [set_then_eraseIdx_at l r dc _ hlc]
    refine ⟨_, getElem?_at_idx _ dc hlc, ?_⟩
    simp only [BNode.keys_mk, List.length_append, List.length_cons]
    omega
  · cases h

theorem fixChild_shape {m : Nat} {lf : Bool} {ks : List Int} {cs : List BNode} {idx : Nat}
    {n' : BNode} (h : fixChild m (.mk lf ks cs) idx = some n') :
    ∃ ks' cs', n' = .mk lf ks' cs' ∧
      ((ks' = ks ∧ cs' = cs ∧ ∃ c, cs[idx]? = some c ∧ m ≤ c.keys.length) ∨
        (ks'.length = ks.length ∧ 1 ≤ ks.length) ∨
        (∃ j, j + 1 ≤ ks.length ∧ ks' = ks.eraseIdx j ∧
          ∃ mg, cs'[j]? = some mg ∧ 1 ≤ mg.keys.length)) := by
  rw [fixChild] at h
  split at h
  · cases h
  · rename_i c heq
    split at h
    · rename_i hcl
      injection h with h
      exact ⟨ks, cs, h.symm, Or.inl ⟨rfl, rfl, c, heq, hcl⟩⟩
    · rename_i hcl
      split at h
      · obtain ⟨ks', cs', hn, hlen, hpos⟩ := borrowFromLeft_shape h
        exact ⟨ks', cs', hn, Or.inr (Or.inl ⟨hlen, hpos⟩)⟩
      · split at h
        · obtain ⟨ks', cs', hn, hlen, hpos⟩ := borrowFromRight_shape h
          exact ⟨ks', cs', hn, Or.inr (Or.inl ⟨hlen, hpos⟩)⟩
        · split at h
          · obtain ⟨cs', hn, hj, mg, hmg, hmgl⟩ := mergeSiblings_shape h
            exact ⟨_, cs', hn, Or.inr (Or.inr ⟨idx, hj, rfl, mg, hmg, hmgl⟩)⟩
          · split at h
            · obtain ⟨cs', hn, hj, mg, hmg, hmgl⟩ := mergeSiblings_shape h
              exact ⟨_, cs', hn, Or.inr (Or.inr ⟨idx - 1, hj, rfl, mg, hmg, hmgl⟩)⟩
            · cases h

theorem fixChild_keys_cases {m : Nat} {lf : Bool} {ks : List Int} {cs : List BNode}
    {idx : Nat} {n' : BNode} (h : fixChild m (.mk lf ks cs) idx = some n')
    (hm : 1 ≤ m) (hidx0 : ks = [] → idx = 0) :
    ∃ ks' cs', n' = .mk lf ks' cs' ∧
      (1 ≤ ks'.length ∨ ∃ c, cs'[0]? = some c ∧ 1 ≤ c.keys.length) := by
  obtain ⟨ks', cs', hn, hcase⟩ := fixChild_shape h
  refine ⟨ks', cs', hn, ?_⟩
  rcases hcase with ⟨hk, hcs, c, hc, hcl⟩ | ⟨hlen, hpos⟩ | ⟨j, hj, hk, mg, hmg, hmgl⟩
  · by_cases h1 : 1 ≤ ks'.length
    · exact Or.inl h1
    · have hke : ks = [] := by
        subst hk
        cases ks' with
        | nil => rfl
        | cons a l => simp at h1
      right
      refine ⟨c, ?_, by omega⟩
      rw [hcs, ← hidx0 hke]
      exact hc
  · left
    omega
  · by_cases h1 : 1 ≤ ks'.length
    · exact Or.inl h1
    · have h2 : ks'.length = ks.length - 1 := by
        rw [hk, length_eraseIdx_lt (by omega)]
      have hj0 : j = 0 := by omega
      subst hj0
      exact Or.inr ⟨mg, hmg, hmgl⟩

theorem removeVal_leaf {m : Nat} {ks : List Int} {cs : List BNode} {v : Int} :
    removeVal m (.mk true ks cs) v =
      if ks[keyIndex ks v]? = some v then some (.mk true (ks.eraseIdx (keyIndex ks v)) cs)
      else some (.mk true ks cs) := by
  rw [removeVal]
  simp only [if_true_cond, eq_self_iff_true, if_true]

theorem removeVal_shape {m : Nat} {ks : List Int} {cs : List BNode} {v : Int} {n' : BNode}
    (hm : 1 ≤ m) (h : removeVal m (.mk false ks cs) v = some n') :
    ∃ ks' cs', n' = .mk false ks' cs' ∧
      (1 ≤ ks'.length ∨ ∃ c, cs'[0]? = some c ∧ 1 ≤ c.keys.length) := by
  rw [removeVal] at h
  simp only [Bool.false_eq_true, if_false] at h
  split at h
  · rename_i hfound
    have hlen : 1 ≤ ks.length := by
      have := getElem?_lt hfound
      omega
    split at h
    · cases h
    · rename_i cl hcl
      split at h
      · split at h
        · cases h
        · rename_i p hp
          split at h
          · cases h
          · rename_i cl2 hrec
            refine fixChild_keys_cases h hm (fun hke => ?_)
            exfalso
            have h9 := congrArg List.length hke
            rw [List.length_set, List.length_nil] at h9
            omega
      · split at h
        · cases h
        · rename_i cr hcr
          split at h
          · split at h
            · cases h
            · rename_i s hsuc
              split at h
              · cases h
              · rename_i cr2 hrec
                refine fixChild_keys_cases h hm (fun hke => ?_)
                exfalso
                have h9 := congrArg List.length hke
                rw [List.length_set, List.length_nil] at h9
                omega
          · split at h
            · cases h
            · rename_i m2 hrec
              refine fixChild_keys_cases h hm (fun hke => ?_)
              have h8 := getElem?_lt hfound
              have h9 := congrArg List.length hke
              rw [length_eraseIdx_lt h8, List.length_nil] at h9
              omega
  · rename_i hnf
    split at h
    · cases h
    · rename_i c hc
      split at h
      · cases h
      · rename_i c2 hrec
        refine fixChild_keys_cases h hm (fun hke => ?_)
        rw [hke]
        rfl

/-- C9: after `insert` and after `remove` (and trivially after `find`, which
does not modify the tree) the root is never a zero-key internal node:
`insert` never shrinks the root's key count (a pre-split full root starts with
one key), and `remove` collapses a zero-key internal root onto its single
remaining child, which the borrow/merge discipline of `fixChild` and
`removeVal` always leaves with at least one key.  Conditioned on `order ≥ 3`
and the root being non-degenerate beforehand. -/
theorem c9_root_never_degenerate (t : BTree) (v : Int) (hord : 3 ≤ t.order)
    (h0 : t.root.is_leaf = false → 1 ≤ t.root.keys.length) :
    (∀ t' : BTree, t.insert v = some t' →
      (t'.root.is_leaf = false → 1 ≤ t'.root.keys.length)) ∧
    (∀ t' : BTree, t.remove v = some t' →
      (t'.root.is_leaf = false → 1 ≤ t'.root.keys.length)) := by
  obtain ⟨od, root⟩ := t
  obtain ⟨lf0, ks0, cs0⟩ := root
  have hord2 : 3 ≤ od := hord
  constructor
  · intro t' ht hlf
    rw [BTree.insert] at ht
    split at ht
    · split at ht
      · cases ht
      · rename_i r heq
        obtain ⟨u, hu, h2⟩ := Option.map_eq_some'.mp ht
        obtain ⟨ks', cs', hn, hlen⟩ := insertVal_top_shape hu
        have h3 : t'.root = u := by rw [← h2]
        rw [h3, hn]
        simp only [BNode.keys_mk]
        simp only [List.length_cons, List.length_nil] at hlen
        omega
    · obtain ⟨u, hu, h2⟩ := Option.map_eq_some'.mp ht
      obtain ⟨ks', cs', hn, hlen⟩ := insertVal_top_shape hu
      have h3 : t'.root = u := by rw [← h2]
      rw [h3, hn] at hlf
      simp only [BNode.is_leaf_mk] at hlf
      have h4 : 1 ≤ ks0.length := h0 hlf
      rw [h3, hn]
      simp only [BNode.keys_mk]
      omega
  · intro t' ht hlf
    rw [BTree.remove] at ht
    split at ht
    · rename_i hfind
      split at ht
      · cases ht
      · rename_i r hrem
        cases lf0 with
        | true =>
          rw [removeVal_leaf] at hrem
          split at hrem
          · injection hrem with hrem
            subst hrem
            rw [if_neg (by simp)] at ht
            injection ht with ht
            subst ht
            exact Bool.noConfusion hlf
          · injection hrem with hrem
            subst hrem
            rw [if_neg (by simp)] at ht
            injection ht with ht
            subst ht
            exact Bool.noConfusion hlf
        | false =>
          have hm : 1 ≤ BTree.min_keys ⟨od, .mk false ks0 cs0⟩ := by
            show 1 ≤ (od + 1) / 2 - 1
            omega
          obtain ⟨ks', cs', hn, hcase⟩ := removeVal_shape hm hrem
          subst hn
          by_cases hke : 1 ≤ ks'.length
          · have hnonempty : ks' ≠ [] := List.ne_nil_of_length_pos (by omega)
            rw [if_neg (by simp [hnonempty])] at ht
            injection ht with ht
            subst ht
            show 1 ≤ ks'.length
            exact hke
          · have hke2 : ks' = [] := by
              cases ks' with
              | nil => rfl
              | cons a l => simp at hke
            subst hke2
            rw [if_pos (by simp)] at ht
            rcases hcase with h1 | ⟨c, hc, hcl⟩
            · simp at h1
            · split at ht
              · cases ht
              · rename_i c0 hcc
                simp only [BNode.childrens_mk] at hcc
                rw [hc] at hcc
                injection hcc with hcc
                subst hcc
                injection ht with ht
                subst ht
                exact hcl
    · injection ht with ht
      subst ht
      exact h0 hlf

/-- Witness for C9: on the order-3 single-leaf tree holding `[1]`, inserting
or removing `1` never leaves a zero-key internal root. -/
theorem c9_witness :
    3 ≤ (3 : Nat) ∧
    ((BNode.mk true [1] []).is_leaf = false → 1 ≤ (BNode.mk true [1] []).keys.length) ∧
    ((∀ t' : BTree, BTree.insert ⟨3, .mk true [1] []⟩ 1 = some t' →
        (t'.root.is_leaf = false → 1 ≤ t'.root.keys.length)) ∧
      (∀ t' : BTree, BTree.remove ⟨3, .mk true [1] []⟩ 1 = some t' →
        (t'.root.is_leaf = false → 1 ≤ t'.root.keys.length))) :=
  ⟨by decide, by decide,
    c9_root_never_degenerate ⟨3, .mk true [1] []⟩ 1 (by decide) (by decide)⟩

unseal findVal insertVal removeVal findSuc findPred


/-- C1: the claimed invariants do not survive every insert/remove sequence.
Counterexample at order 3 (`min_keys = 1`): inserting `2, 3, 1` into a fresh
tree pre-splits the full root `[2,3]` at `mid = 1`, which leaves the new right
sibling with zero keys; the final tree `[3] / [[1,2], []]` has a non-root leaf
with `0 < min_keys` keys, so the occupancy invariant is violated. -/
theorem c1_splitSibling_underflows_order3 :
    ((((BTree.make 3).bind (fun t => t.insert 2)).bind (fun t => t.insert 3)).bind
        (fun t => t.insert 1)) =
      some ⟨3, .mk false [3] [.mk true [1, 2] [], .mk true [] []]⟩ ∧
    btreeInvariant ⟨3, .mk false [3] [.mk true [1, 2] [], .mk true [] []]⟩ = false ∧
    BTree.min_keys ⟨3, .mk false [3] [.mk true [1, 2] [], .mk true [] []]⟩ = 1 := by
  exact ⟨rfl, rfl, rfl⟩

/-- C2: the round trip fails on a reachable state.  At order 3, after
`insert 1` four times the tree is `[1,1] / [[1,1], [], []]`; `insert 2` then
succeeds and leaves `2` with multiplicity 1 and `find 2 = true`, but the
subsequent `remove 2` runs `fixChild` on a node with a single child, where the
C++ computes `leftIdx = -1` and indexes a vector out of bounds (modelled
`none`): the removal does not complete, so `find(v) = false` is never
reached. -/
theorem c2_remove_after_insert_crashes :
    ∃ t4 t5 : BTree,
      (((((BTree.make 3).bind (fun t => t.insert 1)).bind (fun t => t.insert 1)).bind
          (fun t => t.insert 1)).bind (fun t => t.insert 1)) = some t4 ∧
      t4.insert 2 = some t5 ∧
      (keysList t5.root).count 2 = 1 ∧
      t5.find 2 = true ∧
      t5.remove 2 = none := by
  refine ⟨⟨3, .mk false [1, 1] [.mk true [1, 1] [], .mk true [] [], .mk true [] []]⟩,
    ⟨3, .mk false [1] [.mk false [1] [.mk true [1, 1] [], .mk true [] []],
      .mk false [] [.mk true [2] []]]⟩, rfl, rfl, rfl, rfl, rfl⟩

/-- C4: removal of a present value does not always decrement its multiplicity;
on a reachable state it aborts with an out-of-bounds access.  At order 3,
after `insert 1` five times the tree holds `1` with multiplicity 5, and its
first child (keys `[1,1]`) has an empty third child; `remove 1` picks the
predecessor path, and `findPred` walks into that empty leaf and reads
`keys[size - 1]` of an empty vector (modelled `none`). -/
theorem c4_remove_crashes_on_reachable_state :
    ∃ t5 : BTree,
      ((((((BTree.make 3).bind (fun t => t.insert 1)).bind (fun t => t.insert 1)).bind
          (fun t => t.insert 1)).bind (fun t => t.insert 1)).bind (fun t => t.insert 1)) =
        some t5 ∧
      (keysList t5.root).count 1 = 5 ∧
      t5.remove 1 = none := by
  refine ⟨⟨3, .mk false [1] [.mk false [1, 1] [.mk true [1, 1] [], .mk true [] [],
    .mk true [] []], .mk false [] [.mk true [] []]]⟩, rfl, rfl, rfl⟩

/-- Counterexample for C8's tie direction: at order 3, inserting `2` into the
tree `[2] / [[1],[3]]` (the key `2` already present as the root separator at
index 0) puts the duplicate into the LEFT child, giving `[2] / [[1,2],[3]]`:
the right child `[3]` is unchanged and does not contain `2`, contrary to the
claim that ties land in the right child subtree `children[i+1]`. -/
theorem c8_tie_lands_left_counterexample :
    BTree.insert ⟨3, .mk false [2] [.mk true [1] [], .mk true [3] []]⟩ 2 =
      some ⟨3, .mk false [2] [.mk true [1, 2] [], .mk true [3] []]⟩ ∧
    (2 : Int) ∈ keysList (BNode.mk true [1, 2] []) ∧
    (2 : Int) ∉ keysList (BNode.mk true [3] []) :=
  ⟨rfl, by decide, by decide⟩

/-- Witness for C8 (amended): the bounds and the tie-left descent rule on the
order-3 tree `[2] / [[1],[3]]` at `v = 2`. -/
theorem c8_witness :
    shapeOk (BNode.mk false [2] [.mk true [1] [], .mk true [3] []]) = true ∧
    orderedNode (BNode.mk false [2] [.mk true [1] [], .mk true [3] []]) = true ∧
    ((∀ n : BNode,
        InTree n (BNode.mk false [2] [.mk true [1] [], .mk true [3] []]) →
        n.is_leaf = false →
        ∀ (i : Nat) (k : Int), n.keys[i]? = some k →
          (∀ c : BNode, n.childrens[i]? = some c → ∀ x ∈ keysList c, x ≤ k) ∧
          (∀ c : BNode, n.childrens[i + 1]? = some c → ∀ x ∈ keysList c, k ≤ x)) ∧
      (∀ (order : Nat) (n c : BNode),
        InTree n (BNode.mk false [2] [.mk true [1] [], .mk true [3] []]) →
        n.is_leaf = false →
        n.keys[keyIndex n.keys 2]? = some 2 →
        n.childrens[keyIndex n.keys 2]? = some c →
        ¬c.keys.length = order - 1 →
        insertVal order n 2 =
          (insertVal order c 2).map
            (fun u => .mk false n.keys (n.childrens.set (keyIndex n.keys 2) u)))) := by
  refine ⟨by decide, by decide, ?_⟩
  exact c8_order_invariant_and_tie_direction
    ⟨3, .mk false [2] [.mk true [1] [], .mk true [3] []]⟩ 2 (by decide) (by decide)

end DatasBTree
